import Mathlib

/-!
Verification of the output-routing subsystem of the slack-llm-runner
repository: the envelope stream parser (`src/streaming/envelopeParser.ts`),
the ANSI stripper (`src/streaming/ansiStrip.ts`), the full-output streamer
(`src/streaming/fullStreamer.ts`), the session lifecycle manager
(`src/cli/session.ts` / runner) and the deterministic UUID derivation
(`stringToUuid`).  Text is modelled as `List Char`; JavaScript string
operations (slice, indexOf, toLowerCase, trim, regexes) are embedded
as executable Lean functions on character lists.
-/

namespace SlackRunner

/-! ### Character utilities -/

/-- ASCII lowercasing, modelling `String.prototype.toLowerCase` and
case-insensitive regex matching on the ASCII range (all marker characters
are ASCII). -/
def asciiLower (c : Char) : Char :=
  if 'A' ≤ c ∧ c ≤ 'Z' then Char.ofNat (c.toNat + 32) else c

/-- JavaScript word character `\w`: A-Z, a-z, 0-9 or underscore. -/
def isWordChar (c : Char) : Bool :=
  ('A' ≤ c && c ≤ 'Z') || ('a' ≤ c && c ≤ 'z') || ('0' ≤ c && c ≤ '9') || c = '_'

/-- Whitespace recognised by `String.prototype.trim`. -/
def isJsSpace (c : Char) : Bool :=
  c = ' ' || c = '\t' || c = '\n' || c = '\r' ||
  c.toNat = 0x0b || c.toNat = 0x0c || c.toNat = 0xa0 || c.toNat = 0x1680 ||
  (0x2000 ≤ c.toNat && c.toNat ≤ 0x200a) ||
  c.toNat = 0x2028 || c.toNat = 0x2029 || c.toNat = 0x202f ||
  c.toNat = 0x205f || c.toNat = 0x3000 || c.toNat = 0xfeff

/-- `String.prototype.trim`: drop leading and trailing whitespace. -/
def jsTrim (l : List Char) : List Char :=
  ((l.dropWhile isJsSpace).reverse.dropWhile isJsSpace).reverse

/-! ### `ansiStrip.ts`: `stripAnsi`

The ANSI regex is embedded as a scanner: at an ESC byte, either one
character of the class 0x40 to 0x5A or 0x5C to 0x5F follows (two-character
escape), or a left bracket followed by parameter bytes 0x30 to 0x3F,
intermediate bytes 0x20 to 0x2F and one final byte 0x40 to 0x7E (a CSI
sequence).  A global replace removes every match left to right, advancing
one character where no match starts; the second replace removes every
carriage return.  The three CSI byte classes are pairwise disjoint and
disjoint from the final-byte class at the point of use, so the greedy
backtracking of the original regex reduces to this deterministic scan. -/

def isEscClass (c : Char) : Bool :=
  (0x40 ≤ c.toNat && c.toNat ≤ 0x5a) || (0x5c ≤ c.toNat && c.toNat ≤ 0x5f)

def isCsiParam (c : Char) : Bool := 0x30 ≤ c.toNat && c.toNat ≤ 0x3f

def isCsiIntermed (c : Char) : Bool := 0x20 ≤ c.toNat && c.toNat ≤ 0x2f

def isCsiFinal (c : Char) : Bool := 0x40 ≤ c.toNat && c.toNat ≤ 0x7e

def escChar : Char := Char.ofNat 0x1b

/-- Given the text after an ESC-bracket, consume parameter bytes, then
intermediate bytes, then one final byte, returning the rest, or `none` if no
final byte completes the sequence. -/
def csiRest (l : List Char) : Option (List Char) :=
  match (l.dropWhile isCsiParam).dropWhile isCsiIntermed with
  | f :: r => if isCsiFinal f then some r else none
  | [] => none

/-- A single attempt of the ANSI regex anchored at the head of the list:
returns the text after the match, or `none`. -/
def ansiMatch : List Char → Option (List Char)
  | a :: c :: rest =>
    if a = escChar then
      if isEscClass c then some rest
      else if c = '[' then csiRest rest
      else none
    else none
  | _ => none

/-- The scanning pass of the global ANSI-regex replace, structurally
recursive on a fuel bound (at least one character is consumed per unit of
fuel, so a fuel of the list length always suffices and the zero-fuel branch
is never reached from the wrapper below). -/
def stripEscF : Nat → List Char → List Char
  | 0, l => l
  | _, [] => []
  | fuel + 1, a :: rest =>
    match ansiMatch (a :: rest) with
    | some r => stripEscF fuel r
    | none => a :: stripEscF fuel rest

def stripEsc (l : List Char) : List Char := stripEscF l.length l

/-- `stripAnsi`: remove ANSI escape sequences, then all carriage returns. -/
def stripAnsi (l : List Char) : List Char :=
  (stripEsc l).filter (fun c => c ≠ '\r')

/-! ### `envelopeParser.ts`: marker scanning

The open-tag regex (three left angles, `slack`, an optional colon plus word
characters, three right angles, case-insensitive) and the close tag
(`end_slack` between triple angles, compared on the lowercased buffer).
`openMatchAt` decides whether a match of the open regex starts at the head
of the given text and returns its length and the captured raw type; because
a word character is never an angle bracket, the leftmost-first backtracking
semantics of the regex engine reduce to this deterministic form. -/

/-- Does lowercasing `s` start with the (already lowercase) pattern? -/
def startsWithLower : List Char → List Char → Bool
  | [], _ => true
  | _ :: _, [] => false
  | p :: ps, c :: cs => asciiLower c = p && startsWithLower ps cs

def openLit : List Char := ['<', '<', '<', 's', 'l', 'a', 'c', 'k']

def angles3 : List Char := ['>', '>', '>']

def closeTagLit : List Char :=
  ['<', '<', '<', 'e', 'n', 'd', '_', 's', 'l', 'a', 'c', 'k', '>', '>', '>']

/-- Match of the open-tag regex anchored at the head of `s`:
returns the match length and the captured type characters. -/
def openMatchAt (s : List Char) : Option (Nat × Option (List Char)) :=
  if startsWithLower openLit s then
    if startsWithLower angles3 (s.drop 8) then some (11, none)
    else
      match s.drop 8 with
      | c :: w =>
        if c = ':' then
          let run := w.takeWhile isWordChar
          if 0 < run.length ∧ startsWithLower angles3 (w.drop run.length) then
            some (12 + run.length, some run)
          else none
        else none
      | [] => none
  else none

/-- Leftmost match of the open-tag regex: position, length, raw type. -/
def findOpen : List Char → Option (Nat × Nat × Option (List Char))
  | [] => none
  | c :: cs =>
    match openMatchAt (c :: cs) with
    | some (len, ty) => some (0, len, ty)
    | none => (findOpen cs).map (fun x => (x.1 + 1, x.2))

/-- Index of the close tag in the lowercased buffer (JS indexOf). -/
def findClose : List Char → Option Nat
  | [] => none
  | c :: cs =>
    if startsWithLower closeTagLit (c :: cs) then some 0
    else (findClose cs).map (· + 1)

/-! ### Envelope parser data model -/

/-- `EnvelopeType` from `src/types.ts`. -/
inductive EnvType
  | progress | question | warning | done | error
  deriving DecidableEq, Repr

/-- The valid-type check: the raw captured type characters are lowercased
and validated against the closed set; anything else resolves to untyped. -/
def validType : Option (List Char) → Option EnvType
  | none => none
  | some raw =>
    let t := raw.map asciiLower
    if t = "progress".toList then some .progress
    else if t = "question".toList then some .question
    else if t = "warning".toList then some .warning
    else if t = "done".toList then some .done
    else if t = "error".toList then some .error
    else none

/-- `EnvelopeMessage` from `src/types.ts`; the absent `incomplete` field of a
normally closed envelope is modelled as `false` (it is only ever read for
truthiness). -/
structure EnvMsg where
  type : Option EnvType
  text : List Char
  incomplete : Bool
  deriving DecidableEq, Repr

/-- Mutable fields of `EnvelopeParser` other than the timers:
state, scan buffer, capture buffer and current type. -/
structure ParserSt where
  capturing : Bool
  scanBuffer : List Char
  captureBuffer : List Char
  currentType : Option EnvType
  deriving DecidableEq, Repr

/-- The scan-tail constant (40). -/
def SCAN_TAIL : Nat := 40

/-- Trimming the scan buffer to its last `SCAN_TAIL` characters when it has
grown beyond that length (JS slice with negative index). -/
def trimTail (l : List Char) : List Char :=
  if SCAN_TAIL < l.length then l.drop (l.length - SCAN_TAIL) else l

/-! ### Envelope parser transitions

The mutual recursion between `tryScanOpen` and `tryClose` consumes a whole
marker (at least one buffered character) per recursive call, so it is
embedded structurally over a fuel bound of one more than the total buffered
length; the wrappers below always supply sufficient fuel and the zero-fuel
branches are never reached (`tryFuel_spec`). -/

mutual

/-- Fueled `tryScanOpen`: search the scan buffer for an open tag; on a match
move the remainder into the capture buffer, transition to capturing and
immediately try a close; otherwise trim the scan buffer to its safety tail.
Emitted envelopes are collected in the returned list. -/
def tryScanOpenF : Nat → ParserSt → ParserSt × List EnvMsg
  | 0, st => (st, [])
  | fuel + 1, st =>
    match findOpen st.scanBuffer with
    | none => ({ st with scanBuffer := trimTail st.scanBuffer }, [])
    | some (i, len, rawTy) =>
      tryCloseF fuel { capturing := true, scanBuffer := [],
                       captureBuffer := st.scanBuffer.drop (i + len),
                       currentType := validType rawTy }

/-- Fueled `tryClose`: search the capture buffer (lowercased) for the close
tag; on a match emit the envelope (`incomplete` absent, i.e. false) and feed
the remainder back through scanning when it is nonempty. -/
def tryCloseF : Nat → ParserSt → ParserSt × List EnvMsg
  | 0, st => (st, [])
  | fuel + 1, st =>
    match findClose st.captureBuffer with
    | none => (st, [])
    | some idx =>
      let msg : EnvMsg :=
        ⟨st.currentType, jsTrim (stripAnsi (st.captureBuffer.take idx)), false⟩
      let remainder := st.captureBuffer.drop (idx + 15)
      let st2 : ParserSt :=
        { capturing := false, scanBuffer := remainder,
          captureBuffer := [], currentType := st.currentType }
      if remainder.isEmpty then (st2, [msg])
      else
        let r := tryScanOpenF fuel st2
        (r.1, msg :: r.2)

end

/-- Total buffered characters: the fuel measure of the parser recursion. -/
def parserMeasure (st : ParserSt) : Nat :=
  st.scanBuffer.length + st.captureBuffer.length

def tryScanOpen (st : ParserSt) : ParserSt × List EnvMsg :=
  tryScanOpenF (parserMeasure st + 1) st

def tryClose (st : ParserSt) : ParserSt × List EnvMsg :=
  tryCloseF (parserMeasure st + 1) st

/-- `push` (after activation): append the chunk to the buffer selected by
the current state and run the corresponding scan. -/
def pushCore (st : ParserSt) (data : List Char) : ParserSt × List EnvMsg :=
  if st.capturing then
    tryClose { st with captureBuffer := st.captureBuffer ++ data }
  else
    tryScanOpen { st with scanBuffer := st.scanBuffer ++ data }

/-- `flushPartial`: unclosed-timeout handler.  It emits the capture buffer
as an incomplete envelope when its stripped trimmed text is nonempty, and
returns to scanning. -/
def flushPartial (st : ParserSt) : ParserSt × List EnvMsg :=
  let text := jsTrim (stripAnsi st.captureBuffer)
  ({ st with capturing := false, captureBuffer := [] },
   if text.isEmpty then [] else [⟨st.currentType, text, true⟩])

/-- `flush`: terminal flush on process exit.  Any nonempty in-progress
capture is emitted as incomplete, then all mutable state is reset. -/
def flushFinal (st : ParserSt) : ParserSt × List EnvMsg :=
  let msgs :=
    if st.capturing ∧ ¬(jsTrim (stripAnsi st.captureBuffer)).isEmpty then
      [(⟨st.currentType, jsTrim (stripAnsi st.captureBuffer), true⟩ : EnvMsg)]
    else []
  (⟨false, [], [], none⟩, msgs)

/-- Whole `EnvelopeParser` object: core state plus the activation flag set
by the activation timer. -/
structure Parser where
  activated : Bool
  st : ParserSt
  deriving DecidableEq, Repr

/-- `EnvelopeParser.push`: chunks arriving before activation are dropped. -/
def Parser.push (p : Parser) (data : List Char) : Parser × List EnvMsg :=
  if p.activated then
    let r := pushCore p.st data
    ({ p with st := r.1 }, r.2)
  else (p, [])

/-- Initial parser state: scanning, empty buffers, no type. -/
def initSt : ParserSt := ⟨false, [], [], none⟩

/-- Feed a list of chunks in order to an already-activated parser,
collecting all emitted envelopes. -/
def pushManyCore (st : ParserSt) : List (List Char) → ParserSt × List EnvMsg
  | [] => (st, [])
  | d :: ds =>
    let r := pushCore st d
    let r2 := pushManyCore r.1 ds
    (r2.1, r.2 ++ r2.2)

/-- Run the parser with an activation delay over timestamped chunks: a chunk
arriving at time `t` is processed with the activation flag set exactly when
the activation timer (armed at construction for `delay` ms) has fired. -/
def runTimed (delay : Nat) : Parser → List (Nat × List Char) → Parser × List EnvMsg
  | p, [] => (p, [])
  | p, (t, d) :: rest =>
    let p1 : Parser := { p with activated := p.activated || decide (delay ≤ t) }
    let r := p1.push d
    let r2 := runTimed delay r.1 rest
    (r2.1, r.2 ++ r2.2)

/-! ### `fullStreamer.ts`: the Full-Output Streamer

Outbound Slack calls are modelled as an effect list; message timestamps are
natural numbers.  A reporting call that throws produces no effect; the
try/catch in `flush` is modelled by the function always returning a state
(failures never propagate).  The fate of each outbound call in a tick is
supplied as an explicit outcome record, since it is decided by the external
reporting layer. -/

/-- Mutable fields of `FullStreamer`: `buffer`, `currentTs`, `stopped`
(the flush timer handle is not part of the observable state). -/
structure StreamerSt where
  buffer : List Char
  currentTs : Option Nat
  stopped : Bool
  deriving DecidableEq, Repr

/-- A successful outbound reporting call. -/
inductive OutEffect
  | update (ts : Nat) (text : List Char)
  | post (newTs : Nat) (text : List Char)
  deriving DecidableEq, Repr

/-- Outcome of the reporting layer during one flush tick: whether the
update call succeeds, whether the post call succeeds, and the timestamp a
successful post returns. -/
structure TickIO where
  updateOk : Bool
  postOk : Bool
  newTs : Nat
  deriving DecidableEq, Repr

/-- Code-fenced rendering used by `flush` (no trailing newline). -/
def fenced (l : List Char) : List Char :=
  "```\n".toList ++ l ++ "\n```".toList

/-- The placeholder text of a freshly opened outbound message. -/
def placeholderNext : List Char := "⏳ …".toList

/-- `FullStreamer.push`: drop when stopped, else append the ANSI-stripped
chunk to the buffer. -/
def streamerPush (st : StreamerSt) (data : List Char) : StreamerSt :=
  if st.stopped then st else { st with buffer := st.buffer ++ stripAnsi data }

/-- `FullStreamer.flush` with `maxChars` the configured per-message
character ceiling.  In the split branch the buffer is sliced *before* the
two awaited reporting calls; a failure in either call is caught and logged.
In the non-split branch the buffer is not mutated. -/
def streamerFlush (maxChars : Nat) (st : StreamerSt) (io : TickIO) :
    StreamerSt × List OutEffect :=
  if st.buffer.isEmpty ∨ st.currentTs = none ∨ st.stopped then (st, [])
  else
    let ts := st.currentTs.getD 0
    if maxChars < st.buffer.length then
      let chunk := st.buffer.take maxChars
      let st1 : StreamerSt := { st with buffer := st.buffer.drop maxChars }
      if io.updateOk then
        if io.postOk then
          ({ st1 with currentTs := some io.newTs },
           [.update ts (fenced chunk), .post io.newTs placeholderNext])
        else (st1, [.update ts (fenced chunk)])
      else (st1, [])
    else
      if io.updateOk then (st, [.update ts (fenced st.buffer)]) else (st, [])

/-- `FullStreamer.finish`: set `stopped`, cancel the timer, send the final
status update (uncaught: a failure propagates to the router's boundary
before `buffer` is cleared), then clear the buffer. -/
def streamerFinish (st : StreamerSt) (exitCode : Int) (io : TickIO) :
    StreamerSt × List OutEffect :=
  let status : List Char := if exitCode = 0 then "✅".toList else "❌".toList
  let codeBlock : List Char :=
    if (jsTrim st.buffer).isEmpty then []
    else "```\n".toList ++ jsTrim st.buffer ++ "\n```\n".toList
  let finalText := codeBlock ++ status ++ (" Exited with code ".toList ++ exitCode.repr.toList)
  if st.currentTs = none then ({ st with stopped := true, buffer := [] }, [])
  else if io.updateOk then
    ({ st with stopped := true, buffer := [] },
     [.update (st.currentTs.getD 0) finalText])
  else ({ st with stopped := true }, [])

/-! ### Session lifecycle (`SessionManager.spawn` exit/timeout wiring)

The exit and timeout callbacks of one session are modelled at the
granularity of the Node event loop.  `finalise` is an async method: its
synchronous prefix checks the active-session map, clears the timeout timer
via `clearTimeout`, sets status and exit code, and initiates
`await router.finish(exitCode)`; it then suspends.  When that await
resolves it initiates the awaited completion-notice update and suspends
again; only when that resolves does it reach `sessions.delete` —
unconditionally, with no re-check after the awaits.  A suspended
invocation is parked as a task with its pending phase, and an
`awaitResolved` event resumes the earliest parked task, so other callbacks
can interleave with an in-flight finalisation.

The exit callback checks and sets the closure flag `exited` synchronously
before calling `finalise`; the timeout handler (which runs only while its
timer is armed) kills the process and calls `finalise` with the sentinel
exit code -1 without consulting or setting that flag. -/

inductive SessStatus
  | running | exited | timedOut
  deriving DecidableEq, Repr

/-- The two suspension points inside `finalise`: parked at
`await router.finish`, and parked at the awaited completion-notice
update. -/
inductive FinPhase
  | awaitingFinish | awaitingNotice
  deriving DecidableEq, Repr

/-- One in-flight `finalise(threadTs, code)` invocation, suspended at an
await. -/
structure FinTask where
  code : Int
  phase : FinPhase
  deriving DecidableEq, Repr

structure SessSt where
  /-- the session is present in the active-session map for its thread key -/
  present : Bool
  /-- the `exited` duplicate-fire guard captured by the `onExit` closure -/
  exitedFlag : Bool
  /-- the session-timeout timer is armed and not yet cleared -/
  timerArmed : Bool
  status : SessStatus
  exitCode : Option Int
  /-- in-flight `finalise` invocations parked at an await, oldest first -/
  tasks : List FinTask
  deriving DecidableEq, Repr

inductive SessEffect
  | routerFinish (code : Int)
  | completionNotice (code : Int)
  | mapRemove
  | kill
  deriving DecidableEq, Repr

/-- The synchronous prefix of `SessionManager.finalise`: return silently
when the session is gone from the map; otherwise clear the timeout timer,
set status (sentinel -1 means timed out) and exit code, initiate
`await router.finish` — the first effect — and park the invocation at that
await. -/
def finaliseEntry (st : SessSt) (code : Int) : SessSt × List SessEffect :=
  if st.present then
    ({ st with timerArmed := false,
               status := if code = -1 then .timedOut else .exited,
               exitCode := some code,
               tasks := st.tasks ++ [⟨code, .awaitingFinish⟩] },
     [.routerFinish code])
  else (st, [])

/-- Resuming a parked `finalise` invocation at its next suspension point:
once the router finish resolves, the completion-notice update is initiated
and awaited; once that resolves, the session is deleted from the map —
the source re-checks nothing after its awaits. -/
def finaliseResume (st : SessSt) (t : FinTask) : SessSt × List SessEffect :=
  match t.phase with
  | .awaitingFinish =>
    ({ st with tasks := st.tasks ++ [⟨t.code, .awaitingNotice⟩] },
     [.completionNotice t.code])
  | .awaitingNotice =>
    ({ st with present := false }, [.mapRemove])

inductive SessEvent
  | exitFired (code : Int)
  | timeoutFired
  | awaitResolved
  deriving DecidableEq, Repr

/-- One event-loop dispatch.  The exit callback checks and sets the
duplicate-fire guard and then enters `finalise`; the timeout handler
(which only runs while its timer is armed) kills the process and enters
`finalise` with the sentinel exit code -1, leaving the guard untouched;
`awaitResolved` resumes the earliest parked `finalise` invocation. -/
def sessStep (st : SessSt) : SessEvent → SessSt × List SessEffect
  | .exitFired code =>
    if st.exitedFlag then (st, [])
    else finaliseEntry { st with exitedFlag := true } code
  | .timeoutFired =>
    if st.timerArmed then
      let r := finaliseEntry { st with timerArmed := false } (-1)
      (r.1, .kill :: r.2)
    else (st, [])
  | .awaitResolved =>
    match st.tasks with
    | [] => (st, [])
    | t :: rest => finaliseResume { st with tasks := rest } t

def runSess (st : SessSt) : List SessEvent → SessSt × List SessEffect
  | [] => (st, [])
  | e :: es =>
    let r := sessStep st e
    let r2 := runSess r.1 es
    (r2.1, r.2 ++ r2.2)

/-- A freshly spawned session: in the map, guard clear, timeout armed, no
finalisation in flight. -/
def initSess : SessSt := ⟨true, false, true, .running, none, []⟩

/-- Resume every parked `finalise` invocation to completion (each parked
task resumes at most twice, so the fuel always suffices). -/
def drainF : Nat → SessSt → SessSt × List SessEffect
  | 0, st => (st, [])
  | n + 1, st =>
    match st.tasks with
    | [] => (st, [])
    | t :: rest =>
      let r := finaliseResume { st with tasks := rest } t
      let r2 := drainF n r.1
      (r2.1, r.2 ++ r2.2)

def drain (st : SessSt) : SessSt × List SessEffect :=
  drainF (2 * st.tasks.length) st

/-- Dispatch a sequence of callback events against a fresh session, then
let every outstanding awaited call resolve: the complete effect trace of
the session's shutdown. -/
def runSessDrain (es : List SessEvent) : SessSt × List SessEffect :=
  let r := runSess initSess es
  let d := drain r.1
  (d.1, r.2 ++ d.2)

def isRouterFinish : SessEffect → Bool
  | .routerFinish _ => true
  | _ => false

def isCompletionNotice : SessEffect → Bool
  | .completionNotice _ => true
  | _ => false

def isMapRemove : SessEffect → Bool
  | .mapRemove => true
  | _ => false

def isAwaitingFinish : FinTask → Bool
  | ⟨_, .awaitingFinish⟩ => true
  | _ => false

/-- Completion notices still owed by the in-flight finalisations. -/
def pendingNotices (st : SessSt) : Nat := st.tasks.countP isAwaitingFinish

/-- Remaining resume steps of an in-flight finalisation. -/
def taskWeight (t : FinTask) : Nat :=
  match t.phase with
  | .awaitingFinish => 2
  | .awaitingNotice => 1

def pipeMeasure (l : List FinTask) : Nat := (l.map taskWeight).sum

/-! ### `stringToUuid` (`src/cli/session.ts`): SHA-1 and UUID shaping

The hash is fed the UTF-8 bytes of the dash-stripped namespace string
followed by the UTF-8 bytes of the input.  SHA-1 is embedded over `Nat`
with explicit reduction modulo 2^32. -/

def w32 (x : Nat) : Nat := x % 4294967296

def rotl32 (n x : Nat) : Nat := w32 ((x <<< n) ||| (x >>> (32 - n)))

/-- `n` bytes of `x`, big-endian. -/
def toBE (n x : Nat) : List Nat :=
  (List.range n).reverse.map (fun i => (x >>> (8 * i)) % 256)

/-- SHA-1 message padding: 0x80, zeros to 56 mod 64, 8-byte bit length. -/
def sha1Pad (msg : List Nat) : List Nat :=
  let zeros := (64 - ((msg.length + 9) % 64)) % 64
  msg ++ 0x80 :: List.replicate zeros 0 ++ toBE 8 (msg.length * 8)

/-- Split into 64-byte chunks, structurally recursive on a fuel bound (the
list length always suffices since each step consumes 64 bytes). -/
def chunks64F : Nat → List Nat → List (List Nat)
  | 0, _ => []
  | _, [] => []
  | fuel + 1, a :: rest => (a :: rest).take 64 :: chunks64F fuel ((a :: rest).drop 64)

def chunks64 (l : List Nat) : List (List Nat) := chunks64F l.length l

/-- The 16 initial 32-bit words of a 64-byte chunk, big-endian. -/
def chunkWords (c : List Nat) : List Nat :=
  (List.range 16).map (fun i =>
    c.getD (4 * i) 0 * 16777216 + c.getD (4 * i + 1) 0 * 65536 +
    c.getD (4 * i + 2) 0 * 256 + c.getD (4 * i + 3) 0)

/-- Word-extension loop: append `n` more words, each the 1-bit left rotation
of the xor of the words 3, 8, 14 and 16 places back. -/
def extendWords : Nat → List Nat → List Nat
  | 0, ws => ws
  | n + 1, ws =>
    extendWords n (ws ++ [rotl32 1 (((ws.getD (ws.length - 3) 0 ^^^
      ws.getD (ws.length - 8) 0) ^^^ ws.getD (ws.length - 14) 0) ^^^
      ws.getD (ws.length - 16) 0)])

/-- One SHA-1 round: `i` is the round index, `w` the schedule word. -/
def sha1Round (st : Nat × Nat × Nat × Nat × Nat) (iw : Nat × Nat) :
    Nat × Nat × Nat × Nat × Nat :=
  let (a, b, c, d, e) := st
  let (i, w) := iw
  let f :=
    if i < 20 then (b &&& c) ||| ((4294967295 - b) &&& d)
    else if i < 40 then (b ^^^ c) ^^^ d
    else if i < 60 then ((b &&& c) ||| (b &&& d)) ||| (c &&& d)
    else (b ^^^ c) ^^^ d
  let k :=
    if i < 20 then 0x5a827999
    else if i < 40 then 0x6ed9eba1
    else if i < 60 then 0x8f1bbcdc
    else 0xca62c1d6
  (w32 (rotl32 5 a + f + e + k + w), a, rotl32 30 b, c, d)

/-- Process one 64-byte chunk into the running hash state. -/
def sha1Chunk (h : Nat × Nat × Nat × Nat × Nat) (c : List Nat) :
    Nat × Nat × Nat × Nat × Nat :=
  let ws := extendWords 64 (chunkWords c)
  let (h0, h1, h2, h3, h4) := h
  let (a, b, c2, d, e) := ws.enum.foldl sha1Round (h0, h1, h2, h3, h4)
  (w32 (h0 + a), w32 (h1 + b), w32 (h2 + c2), w32 (h3 + d), w32 (h4 + e))

/-- SHA-1 digest of a byte list: the 5 final state words as 20 bytes. -/
def sha1 (msg : List Nat) : List Nat :=
  let h := (chunks64 (sha1Pad msg)).foldl sha1Chunk
    (0x67452301, 0xefcdab89, 0x98badcfe, 0x10325476, 0xc3d2e1f0)
  toBE 4 h.1 ++ toBE 4 h.2.1 ++ toBE 4 h.2.2.1 ++ toBE 4 h.2.2.2.1 ++ toBE 4 h.2.2.2.2

def hexDigit (n : Nat) : Char := "0123456789abcdef".toList.getD n '0'

def bytesToHex (bs : List Nat) : List Char :=
  bs.flatMap (fun b => [hexDigit (b / 16), hexDigit (b % 16)])

/-- UTF-8 encoding of one character (`hash.update` on JS strings). -/
def utf8Encode (c : Char) : List Nat :=
  let n := c.toNat
  if n < 0x80 then [n]
  else if n < 0x800 then [0xc0 ||| (n >>> 6), 0x80 ||| (n &&& 0x3f)]
  else if n < 0x10000 then
    [0xe0 ||| (n >>> 12), 0x80 ||| ((n >>> 6) &&& 0x3f), 0x80 ||| (n &&& 0x3f)]
  else
    [0xf0 ||| (n >>> 18), 0x80 ||| ((n >>> 12) &&& 0x3f),
     0x80 ||| ((n >>> 6) &&& 0x3f), 0x80 ||| (n &&& 0x3f)]

def strBytes (l : List Char) : List Nat := l.flatMap utf8Encode

/-- `parseInt` of one lowercase or uppercase hex digit. -/
def hexVal (c : Char) : Nat :=
  if '0' ≤ c ∧ c ≤ '9' then c.toNat - '0'.toNat
  else if 'a' ≤ c ∧ c ≤ 'f' then c.toNat - 'a'.toNat + 10
  else if 'A' ≤ c ∧ c ≤ 'F' then c.toNat - 'A'.toNat + 10
  else 0

/-- `n.toString(16).padStart(2, '0')` for `n < 256` (the only arguments
that occur: the variant byte is always in 128..191). -/
def jsHexPad2 (n : Nat) : List Char :=
  if n < 16 then ['0', hexDigit n] else [hexDigit (n / 16), hexDigit (n % 16)]

/-- The DNS namespace UUID with its dashes removed (as the code feeds it to
the hash: a 32-character hex string, not bytes). -/
def nsHex : List Char := "6ba7b8109dad11d180b400c04fd430c8".toList

/-- `stringToUuid`: SHA-1 of namespace-hex-string and input, shaped as a
UUID v5 with forced version nibble `5` and variant bits `10`. -/
def stringToUuid (input : List Char) : List Char :=
  let hash := bytesToHex (sha1 (strBytes (nsHex ++ input)))
  let variantByte := (16 * hexVal (hash.getD 16 '0') + hexVal (hash.getD 17 '0')) &&& 0x3f ||| 0x80
  hash.take 8 ++ '-' ::
    ((hash.drop 8).take 4 ++ '-' ::
      (('5' :: (hash.drop 13).take 3) ++ '-' ::
        ((jsHexPad2 variantByte ++ (hash.drop 18).take 2) ++ '-' ::
          (hash.drop 20).take 12)))

/-! ### Session spawn argument construction (`SessionManager.spawn`) -/

inductive SessMode
  | interactive | oneShot
  deriving DecidableEq, Repr

/-- `CommandConfig` fields used by spawn-argument construction; `trigger`
stands for the command trigger word field of the source. -/
structure CmdConfig where
  trigger : List Char
  args : List (List Char)
  mode : SessMode
  envelope : Bool
  promptFlag : Option (List Char)
  sessionFlag : Option (List Char)
  sessionIdFlag : Option (List Char)
  resumeFlag : Option (List Char)
  deriving DecidableEq, Repr

/-- The thread-derived plain continuation id `slack-<channel>-<threadTs>`. -/
def slackSessionId (channelId threadTs : List Char) : List Char :=
  "slack-".toList ++ channelId ++ '-' :: threadTs

/-- The continuation id used by a spawn: the id carried by the spawn
options if present, else UUID-derived when the config declares a
UUID-format session id flag, else the plain thread-derived string. -/
def spawnSessionId (cfg : CmdConfig) (channelId threadTs : List Char)
    (optSid : Option (List Char)) : List Char :=
  optSid.getD
    (if cfg.sessionIdFlag.isSome then stringToUuid (slackSessionId channelId threadTs)
     else slackSessionId channelId threadTs)

/-- The session flag/id pair injected into one-shot spawn arguments:
a reusable session flag wins; otherwise a create/resume flag pair chooses
the resume flag exactly for continuations. -/
def sessionArgPair (cfg : CmdConfig) (channelId threadTs : List Char)
    (optSid : Option (List Char)) (isContinuation : Bool) : List (List Char) :=
  let sid := spawnSessionId cfg channelId threadTs optSid
  match cfg.sessionFlag with
  | some f => [f, sid]
  | none =>
    match cfg.sessionIdFlag with
    | some g =>
      if isContinuation then
        match cfg.resumeFlag with
        | some r => [r, sid]
        | none => [g, sid]
      else [g, sid]
    | none => []

/-- Full one-shot spawn argument list: configured args, injected session
flag pair, then the prompt flag plus command or the bare command. -/
def buildOneShotArgs (cfg : CmdConfig) (channelId threadTs : List Char)
    (optSid : Option (List Char)) (isContinuation : Bool)
    (finalCommand : List Char) : List (List Char) :=
  cfg.args ++ sessionArgPair cfg channelId threadTs optSid isContinuation ++
    (match cfg.promptFlag with
     | some pf => [pf, finalCommand]
     | none => [finalCommand])

/-- `ThreadBinding` registered after a successful spawn. -/
structure ThreadBinding where
  trigger : List Char
  sessionId : List Char
  channelId : List Char
  deriving DecidableEq, Repr

/-- Thread binding registration: only for configs declaring a session flag
or session-id flag, and never for continuation spawns; the recorded id uses
the same formula as spawn-argument injection. -/
def registerBinding (cfg : CmdConfig) (channelId threadTs : List Char)
    (optSid : Option (List Char)) (isContinuation : Bool) : Option ThreadBinding :=
  if (cfg.sessionFlag.isSome || cfg.sessionIdFlag.isSome) && !isContinuation then
    some ⟨cfg.trigger, spawnSessionId cfg channelId threadTs optSid, channelId⟩
  else none

/-! ### Wire-format literals for round-trip statements -/

/-- The lowercase tag word of each envelope type. -/
def tagStr : EnvType → List Char
  | .progress => "progress".toList
  | .question => "question".toList
  | .warning => "warning".toList
  | .done => "done".toList
  | .error => "error".toList

/-- A lowercase open marker carrying the given type tag. -/
def openMarker (ty : EnvType) : List Char :=
  "<<<slack:".toList ++ tagStr ty ++ ">>>".toList

/-- The close marker in its uppercase wire form. -/
def closeMarker : List Char := "<<<END_SLACK>>>".toList

/-! ### Untrimmed reference parser (proof infrastructure)

A trim-free variant of the envelope parser: identical to
`tryScanOpenF` / `tryCloseF` except that a failed open scan keeps the whole
scan buffer instead of trimming it to the safety tail.  Chunk-splitting
equivalence is proved by relating the real parser to this reference parser
(whose pushes compose along concatenation unconditionally). -/

mutual

def uScanF : Nat → ParserSt → ParserSt × List EnvMsg
  | 0, st => (st, [])
  | fuel + 1, st =>
    match findOpen st.scanBuffer with
    | none => (st, [])
    | some (i, len, rawTy) =>
      uCloseF fuel { capturing := true, scanBuffer := [],
                     captureBuffer := st.scanBuffer.drop (i + len),
                     currentType := validType rawTy }

def uCloseF : Nat → ParserSt → ParserSt × List EnvMsg
  | 0, st => (st, [])
  | fuel + 1, st =>
    match findClose st.captureBuffer with
    | none => (st, [])
    | some idx =>
      let msg : EnvMsg :=
        ⟨st.currentType, jsTrim (stripAnsi (st.captureBuffer.take idx)), false⟩
      let remainder := st.captureBuffer.drop (idx + 15)
      let st2 : ParserSt :=
        { capturing := false, scanBuffer := remainder,
          captureBuffer := [], currentType := st.currentType }
      if remainder.isEmpty then (st2, [msg])
      else
        let r := uScanF fuel st2
        (r.1, msg :: r.2)

end

def uTryScanOpen (st : ParserSt) : ParserSt × List EnvMsg :=
  uScanF (parserMeasure st + 1) st

def uTryClose (st : ParserSt) : ParserSt × List EnvMsg :=
  uCloseF (parserMeasure st + 1) st

def uPush (st : ParserSt) (data : List Char) : ParserSt × List EnvMsg :=
  if st.capturing then
    uTryClose { st with captureBuffer := st.captureBuffer ++ data }
  else
    uTryScanOpen { st with scanBuffer := st.scanBuffer ++ data }

def uPushMany (st : ParserSt) : List (List Char) → ParserSt × List EnvMsg
  | [] => (st, [])
  | d :: ds =>
    let r := uPush st d
    let r2 := uPushMany r.1 ds
    (r2.1, r.2 ++ r2.2)

/-- Push one more chunk after an earlier transition result, concatenating
the emitted messages. -/
def uPushAfter (r : ParserSt × List EnvMsg) (b : List Char) : ParserSt × List EnvMsg :=
  let r2 := uPush r.1 b
  (r2.1, r.2 ++ r2.2)

/-- Every open-tag match starting at position `j` has length at most 41 (a
type tag of at most 29 word characters), so that no marker outgrows the
40-character scan tail plus one unconsumed character. -/
def openBoundedAtB (l : List Char) (j : Nat) : Bool :=
  match openMatchAt (l.drop j) with
  | some (len, _) => decide (len ≤ 41)
  | none => true

/-- The input never contains an open marker longer than 41 characters. -/
def OpenBounded (l : List Char) : Prop :=
  ∀ j, j < l.length → openBoundedAtB l j = true

/-- Simulation relation between a real-parser state and a reference-parser
state: in scanning the real scan buffer is a suffix of the reference one,
at least `SCAN_TAIL` characters long when that much is available, and the
reference buffer holds no open-tag match; in capturing the states agree. -/
def RelP (t u : ParserSt) : Prop :=
  (t.capturing = false ∧ u.capturing = false ∧
    (∃ δ, t.scanBuffer = u.scanBuffer.drop δ) ∧
    min u.scanBuffer.length SCAN_TAIL ≤ t.scanBuffer.length ∧
    findOpen u.scanBuffer = none) ∨
  (t = u ∧ t.capturing = true)

/-- The live buffer of a reference-parser state is a suffix of `l`. -/
def SuffixOfSt (u : ParserSt) (l : List Char) : Prop :=
  (u.capturing = false → ∃ q, q ++ u.scanBuffer = l) ∧
  (u.capturing = true → ∃ q, q ++ u.captureBuffer = l)

/-! ## Theorems -/

/-! ### Bounds of marker matches and canonical parser equations -/

theorem startsWithLower_length {pat s : List Char}
    (h : startsWithLower pat s = true) : pat.length ≤ s.length := by
  induction pat generalizing s with
  | nil => simp
  | cons p ps ih =>
    cases s with
    | nil => exact absurd h (by simp [startsWithLower])
    | cons c cs =>
      simp only [startsWithLower, Bool.and_eq_true] at h
      simpa using Nat.succ_le_succ (ih h.2)

theorem openMatchAt_bounds {s : List Char} {len : Nat} {ty : Option (List Char)}
    (h : openMatchAt s = some (len, ty)) : 11 ≤ len ∧ len ≤ s.length := by
  unfold openMatchAt at h
  by_cases h8 : startsWithLower openLit s
  · simp only [h8, if_true] at h
    have hlen8 : (8 : Nat) ≤ s.length := by
      simpa [openLit] using startsWithLower_length h8
    by_cases ha : startsWithLower angles3 (s.drop 8)
    · simp only [ha, if_true, Option.some.injEq, Prod.mk.injEq] at h
      have h3 : (3 : Nat) ≤ (s.drop 8).length := by
        simpa [angles3] using startsWithLower_length ha
      rw [List.length_drop] at h3
      omega
    · simp only [ha, if_false] at h
      rcases hv : s.drop 8 with _ | ⟨c, w⟩ <;> rw [hv] at h
      · exact absurd h (by simp)
      · by_cases hc : c = ':'
        · simp only [hc, if_true] at h
          by_cases hrun : 0 < (w.takeWhile isWordChar).length ∧
              startsWithLower angles3 (w.drop (w.takeWhile isWordChar).length)
          · simp only [hrun, if_true, Option.some.injEq, Prod.mk.injEq] at h
            obtain ⟨hlen, _⟩ := h
            have h3 : (3 : Nat) ≤ (w.drop (w.takeWhile isWordChar).length).length := by
              simpa [angles3] using startsWithLower_length hrun.2
            rw [List.length_drop] at h3
            have hdl : (s.drop 8).length = s.length - 8 := List.length_drop 8 s
            rw [hv] at hdl
            simp only [List.length_cons] at hdl
            have htw : (w.takeWhile isWordChar).length ≤ w.length :=
              (List.takeWhile_sublist _).length_le
            omega
          · simp [hrun] at h
        · simp [hc] at h
  · simp [h8] at h

theorem findOpen_bounds {s : List Char} {i len : Nat} {ty : Option (List Char)}
    (h : findOpen s = some (i, len, ty)) : 11 ≤ len ∧ i + len ≤ s.length := by
  induction s generalizing i with
  | nil => exact absurd h (by simp [findOpen])
  | cons c cs ih =>
    rw [findOpen] at h
    rcases hm : openMatchAt (c :: cs) with _ | ⟨len0, ty0⟩ <;> rw [hm] at h
    · simp only [Option.map_eq_some'] at h
      obtain ⟨⟨i', len', ty'⟩, hfo, heq⟩ := h
      simp only [Prod.mk.injEq] at heq
      obtain ⟨hi, hlen, hty⟩ := heq
      subst hi; subst hlen; subst hty
      have := ih hfo
      simp only [List.length_cons]
      omega
    · simp only [Option.some.injEq, Prod.mk.injEq] at h
      obtain ⟨hi, hlen, hty⟩ := h
      subst hi; subst hlen; subst hty
      have := openMatchAt_bounds hm
      omega

theorem findClose_bounds {s : List Char} {i : Nat}
    (h : findClose s = some i) : i + 15 ≤ s.length := by
  induction s generalizing i with
  | nil => exact absurd h (by simp [findClose])
  | cons c cs ih =>
    rw [findClose] at h
    by_cases hs : startsWithLower closeTagLit (c :: cs)
    · simp only [hs, if_true, Option.some.injEq] at h
      subst h
      simpa [closeTagLit] using startsWithLower_length hs
    · rw [if_neg hs] at h
      rcases hfc : findClose cs with _ | j <;> rw [hfc] at h
      · exact absurd h (by simp)
      · simp only [Option.map_some', Option.some.injEq] at h
        subst h
        have := ih hfc
        simp only [List.length_cons]
        omega

/-- Any fuel beyond the buffered length produces the canonical result. -/
theorem tryFuel_spec : ∀ fuel : Nat,
    (∀ st : ParserSt, parserMeasure st < fuel →
      tryScanOpenF fuel st = tryScanOpen st) ∧
    (∀ st : ParserSt, parserMeasure st < fuel →
      tryCloseF fuel st = tryClose st) := by
  intro fuel
  induction fuel using Nat.strong_induction_on with
  | _ fuel ih =>
    match fuel with
    | 0 => exact ⟨fun st h => absurd h (by omega), fun st h => absurd h (by omega)⟩
    | fuel + 1 =>
      constructor
      · intro st hm
        show tryScanOpenF (fuel + 1) st = tryScanOpenF (parserMeasure st + 1) st
        rcases hfo : findOpen st.scanBuffer with _ | ⟨i, len, rawTy⟩
        · simp only [tryScanOpenF, hfo]
        · have hb := findOpen_bounds hfo
          simp only [tryScanOpenF, hfo]
          set st2 : ParserSt :=
            { capturing := true, scanBuffer := [],
              captureBuffer := st.scanBuffer.drop (i + len),
              currentType := validType rawTy } with hst2
          have hm2 : parserMeasure st2 < parserMeasure st := by
            simp only [hst2, parserMeasure, List.length_drop, List.length_nil]
            omega
          have h1 : tryCloseF fuel st2 = tryClose st2 :=
            (ih fuel (by omega)).2 st2 (by omega)
          have h2 : tryCloseF (parserMeasure st) st2 = tryClose st2 :=
            (ih (parserMeasure st) (by omega)).2 st2 (by omega)
          rw [h1, ← h2]
      · intro st hm
        show tryCloseF (fuel + 1) st = tryCloseF (parserMeasure st + 1) st
        rcases hfc : findClose st.captureBuffer with _ | idx
        · simp only [tryCloseF, hfc]
        · have hb := findClose_bounds hfc
          simp only [tryCloseF, hfc]
          set st2 : ParserSt :=
            { capturing := false, scanBuffer := st.captureBuffer.drop (idx + 15),
              captureBuffer := [], currentType := st.currentType } with hst2
          by_cases hre : (st.captureBuffer.drop (idx + 15)).isEmpty
          · simp only [hre, if_true]
          · simp only [hre, if_false]
            have hm2 : parserMeasure st2 < parserMeasure st := by
              simp only [hst2, parserMeasure, List.length_drop, List.length_nil]
              omega
            have h1 : tryScanOpenF fuel st2 = tryScanOpen st2 :=
              (ih fuel (by omega)).1 st2 (by omega)
            have h2 : tryScanOpenF (parserMeasure st) st2 = tryScanOpen st2 :=
              (ih (parserMeasure st) (by omega)).1 st2 (by omega)
            rw [h1, ← h2]

/-- Canonical unfolding of `tryScanOpen` when no open tag matches. -/
theorem tryScanOpen_none {st : ParserSt} (h : findOpen st.scanBuffer = none) :
    tryScanOpen st = ({ st with scanBuffer := trimTail st.scanBuffer }, []) := by
  show tryScanOpenF (parserMeasure st + 1) st = _
  simp only [tryScanOpenF, h]

/-- Canonical unfolding of `tryScanOpen` on an open-tag match. -/
theorem tryScanOpen_some {st : ParserSt} {i len : Nat} {rawTy : Option (List Char)}
    (h : findOpen st.scanBuffer = some (i, len, rawTy)) :
    tryScanOpen st =
      tryClose { capturing := true, scanBuffer := [],
                 captureBuffer := st.scanBuffer.drop (i + len),
                 currentType := validType rawTy } := by
  have hb := findOpen_bounds h
  show tryScanOpenF (parserMeasure st + 1) st = _
  simp only [tryScanOpenF, h]
  exact (tryFuel_spec (parserMeasure st)).2 _
    (by simp only [parserMeasure, List.length_drop, List.length_nil]; omega)

/-- Canonical unfolding of `tryClose` when the close tag is absent. -/
theorem tryClose_none {st : ParserSt} (h : findClose st.captureBuffer = none) :
    tryClose st = (st, []) := by
  show tryCloseF (parserMeasure st + 1) st = _
  simp only [tryCloseF, h]

/-- Canonical unfolding of `tryClose` on a close-tag match. -/
theorem tryClose_some {st : ParserSt} {idx : Nat}
    (h : findClose st.captureBuffer = some idx) :
    tryClose st =
      (let msg : EnvMsg :=
        ⟨st.currentType, jsTrim (stripAnsi (st.captureBuffer.take idx)), false⟩
      let remainder := st.captureBuffer.drop (idx + 15)
      let st2 : ParserSt :=
        { capturing := false, scanBuffer := remainder,
          captureBuffer := [], currentType := st.currentType }
      if remainder.isEmpty then (st2, [msg])
      else
        let r := tryScanOpen st2
        (r.1, msg :: r.2)) := by
  have hb := findClose_bounds h
  show tryCloseF (parserMeasure st + 1) st = _
  simp only [tryCloseF, h]
  by_cases hre : (st.captureBuffer.drop (idx + 15)).isEmpty
  · simp only [hre, if_true]
  · simp only [hre, if_false]
    have := (tryFuel_spec (parserMeasure st)).1
      ({ capturing := false, scanBuffer := st.captureBuffer.drop (idx + 15),
         captureBuffer := [], currentType := st.currentType })
      (by simp only [parserMeasure, List.length_drop, List.length_nil]; omega)
    rw [this]

/-! ### C7: activation gating -/

/-- C7: every chunk pushed before the activation delay has elapsed since
construction is dropped: the parser emits zero envelope messages and its
state is unchanged, even if the chunks contain well-formed markers. -/
theorem c7_no_envelopes_before_activation (delay : Nat) (p : Parser)
    (inputs : List (Nat × List Char)) (hp : p.activated = false)
    (hearly : ∀ td ∈ inputs, td.1 < delay) :
    runTimed delay p inputs = (p, []) := by
  induction inputs generalizing p with
  | nil => rfl
  | cons td rest ih =>
    obtain ⟨t, d⟩ := td
    have ht : t < delay := hearly (t, d) (by simp)
    have hdec : decide (delay ≤ t) = false := by
      simp only [decide_eq_false_iff_not]
      omega
    obtain ⟨pa, pst⟩ := p
    simp only at hp
    subst hp
    simp only [runTimed, hdec, Bool.or_false]
    have hpush : Parser.push ⟨false, pst⟩ d = (⟨false, pst⟩, []) := by
      unfold Parser.push
      simp
    rw [hpush]
    rw [ih ⟨false, pst⟩ rfl (fun td hmem => hearly td (List.mem_cons_of_mem _ hmem))]
    simp

/-- Witness for C7: a chunk containing a complete well-formed envelope at
time 0 with a 1500 ms activation delay produces no messages. -/
theorem c7_no_envelopes_before_activation_witness :
    runTimed 1500 ⟨false, initSt⟩
      [(0, "<<<SLACK:done>>>hi<<<END_SLACK>>>".toList)] = (⟨false, initSt⟩, []) :=
  c7_no_envelopes_before_activation 1500 ⟨false, initSt⟩ _ rfl (by decide)

/-! ### C10: `FullStreamer` is inert after `finish` -/

/-- C10: after `finish` has run, every `push` is a no-op leaving the state
(buffer and current message target) unchanged, and any later flush tick
performs no outbound update or post. -/
theorem c10_streamer_inert_after_finish (st : StreamerSt) (code : Int)
    (io io2 : TickIO) (data : List Char) (maxChars : Nat) :
    streamerPush (streamerFinish st code io).1 data = (streamerFinish st code io).1 ∧
    streamerFlush maxChars (streamerFinish st code io).1 io2 =
      ((streamerFinish st code io).1, []) := by
  have hstop : (streamerFinish st code io).1.stopped = true := by
    simp only [streamerFinish]
    by_cases h1 : st.currentTs = none
    · rw [if_pos h1]
    · rw [if_neg h1]
      by_cases h2 : io.updateOk = true
      · rw [if_pos h2]
      · rw [if_neg h2]
  refine ⟨?_, ?_⟩
  · unfold streamerPush
    rw [if_pos hstop]
  · simp only [streamerFlush]
    rw [if_pos (Or.inr (Or.inr hstop))]

/-! ### C6: one split per over-ceiling flush tick -/

/-- C6: on a flush tick where the buffer strictly exceeds the ceiling and
both reporting calls succeed, the streamer performs exactly one split: one
update of the current message carrying exactly the first ceiling-sized
slice (as a fenced block), one post opening the new current target, the
remainder retained in the buffer, and slice plus remainder re-concatenate
to the pre-tick buffer. -/
theorem c6_split_tick (maxChars : Nat) (st : StreamerSt) (ts : Nat) (io : TickIO)
    (hts : st.currentTs = some ts) (hstop : st.stopped = false)
    (hover : maxChars < st.buffer.length)
    (hupd : io.updateOk = true) (hpost : io.postOk = true) :
    streamerFlush maxChars st io =
      ({ st with buffer := st.buffer.drop maxChars, currentTs := some io.newTs },
       [.update ts (fenced (st.buffer.take maxChars)),
        .post io.newTs placeholderNext]) ∧
    st.buffer.take maxChars ++ st.buffer.drop maxChars = st.buffer := by
  refine ⟨?_, List.take_append_drop _ _⟩
  have hne : st.buffer.isEmpty = false := by
    rcases hb : st.buffer with _ | ⟨x, xs⟩
    · rw [hb] at hover; simp at hover
    · rfl
  simp only [streamerFlush, hts, Option.getD_some]
  rw [if_neg (by simp [hne, hstop])]
  rw [if_pos hover, if_pos hupd, if_pos hpost]

/-- Witness for C6: ceiling 3, buffer of five characters, successful calls:
one update with the first three characters, one post, remainder retained. -/
theorem c6_split_tick_witness :
    streamerFlush 3 ⟨"abcde".toList, some 7, false⟩ ⟨true, true, 9⟩ =
      (⟨"de".toList, some 9, false⟩,
       [.update 7 (fenced "abc".toList), .post 9 placeholderNext]) ∧
    "abc".toList ++ "de".toList = "abcde".toList := by
  have h := c6_split_tick 3 ⟨"abcde".toList, some 7, false⟩ 7 ⟨true, true, 9⟩
    rfl rfl (by decide) rfl rfl
  exact ⟨h.1, by decide⟩

/-! ### C3: reporting failures during a flush tick -/

/-- Counterexample to C3 as stated: with ceiling 3 and buffer `abcd`, a tick
whose update call fails (a reporting-layer error) leaves only `d` in the
buffer and delivers nothing — the three sliced characters are gone from the
buffer, so buffered content is *not* always preserved on a failed tick. -/
theorem c3_counterexample :
    (streamerFlush 3 ⟨"abcd".toList, some 0, false⟩ ⟨false, false, 0⟩).2 = [] ∧
    (streamerFlush 3 ⟨"abcd".toList, some 0, false⟩ ⟨false, false, 0⟩).1.buffer =
      "d".toList ∧
    (streamerFlush 3 ⟨"abcd".toList, some 0, false⟩ ⟨false, false, 0⟩).1.buffer ≠
      "abcd".toList := by decide

/-- C3 as amended: a failed update is never propagated (the tick still
returns a state and delivers nothing); when the buffer is within the
ceiling the whole buffer is preserved for the next tick's retry; but on a
split tick (buffer over the ceiling) the already-sliced first
ceiling-sized portion is lost and only the remainder stays buffered. -/
theorem c3_failed_tick_buffer (maxChars : Nat) (st : StreamerSt) (io : TickIO)
    (hupd : io.updateOk = false) :
    (streamerFlush maxChars st io).2 = [] ∧
    (st.buffer.length ≤ maxChars → (streamerFlush maxChars st io).1 = st) ∧
    (st.currentTs.isSome = true → st.stopped = false → maxChars < st.buffer.length →
      (streamerFlush maxChars st io).1 = { st with buffer := st.buffer.drop maxChars }) := by
  simp only [streamerFlush]
  by_cases h1 : st.buffer.isEmpty = true ∨ st.currentTs = none ∨ st.stopped = true
  · rw [if_pos h1]
    refine ⟨rfl, fun _ => rfl, fun hsome hstop hover => ?_⟩
    rcases h1 with h | h | h
    · rw [List.isEmpty_iff] at h
      rw [h] at hover
      simp at hover
    · rw [h] at hsome
      simp at hsome
    · exact absurd h (by simp [hstop])
  · rw [if_neg h1]
    by_cases hover : maxChars < st.buffer.length
    · rw [if_pos hover, if_neg (by simp [hupd])]
      exact ⟨rfl, fun hle => absurd hover (by omega), fun _ _ _ => rfl⟩
    · rw [if_neg hover, if_neg (by simp [hupd])]
      exact ⟨rfl, fun _ => rfl, fun _ _ h => absurd h hover⟩

/-- Witness for C3 as amended: within-ceiling failed tick preserves the
buffer `ab` entirely. -/
theorem c3_failed_tick_buffer_witness :
    (streamerFlush 3 ⟨"ab".toList, some 0, false⟩ ⟨false, false, 0⟩).2 = [] ∧
    (streamerFlush 3 ⟨"ab".toList, some 0, false⟩ ⟨false, false, 0⟩).1 =
      ⟨"ab".toList, some 0, false⟩ := by
  have h := c3_failed_tick_buffer 3 ⟨"ab".toList, some 0, false⟩ ⟨false, false, 0⟩ rfl
  exact ⟨h.1, h.2.1 (by decide)⟩

/-! ### C5: unclosed-timeout flush -/

/-- Counterexample to C5 as stated: an open marker immediately followed by
the unclosed-timeout (empty capture buffer) emits *zero* envelope messages,
not exactly one — `flushPartial` only emits when the stripped trimmed text
is nonempty. -/
theorem c5_counterexample :
    (pushManyCore initSt ["<<<SLACK:done>>>".toList]).1.capturing = true ∧
    (flushPartial (pushManyCore initSt ["<<<SLACK:done>>>".toList]).1).2 = [] := by
  decide

set_option maxRecDepth 100000 in
/-- C5 as amended: when the unclosed-timeout fires in CAPTURING, the parser
force-emits the capture buffer as exactly one incomplete envelope provided
its stripped trimmed text is nonempty (and emits nothing otherwise),
returns to SCANNING with an empty capture buffer, and a subsequent
well-formed open/close envelope in a later chunk is then parsed normally
into exactly one complete message. -/
theorem c5_unclosed_timeout_flush (st : ParserSt)
    (hc : st.capturing = true) (hs : st.scanBuffer = []) :
    (flushPartial st).1.capturing = false ∧
    (flushPartial st).1.captureBuffer = [] ∧
    ((jsTrim (stripAnsi st.captureBuffer)).isEmpty = false →
      (flushPartial st).2 =
        [⟨st.currentType, jsTrim (stripAnsi st.captureBuffer), true⟩]) ∧
    ((jsTrim (stripAnsi st.captureBuffer)).isEmpty = true →
      (flushPartial st).2 = []) ∧
    pushCore (flushPartial st).1 "<<<SLACK:done>>>ok<<<END_SLACK>>>".toList =
      (⟨false, [], [], some .done⟩, [⟨some .done, "ok".toList, false⟩]) := by
  obtain ⟨cap, scanB, capB, ty⟩ := st
  simp only at hc hs
  subst hc hs
  refine ⟨rfl, rfl, ?_, ?_, ?_⟩
  · intro h
    simp [flushPartial, h]
  · intro h
    simp [flushPartial, h]
  · show pushCore ⟨false, [], [], ty⟩ _ = _
    rfl

/-- Witness for C5 as amended: a partial envelope with body `oops` at
timeout emits exactly one incomplete message, and the concrete follow-up
envelope is then parsed normally. -/
theorem c5_unclosed_timeout_flush_witness :
    (flushPartial ⟨true, [], "oops".toList, some .progress⟩).2 =
      [⟨some .progress, "oops".toList, true⟩] ∧
    pushCore (flushPartial ⟨true, [], "oops".toList, some .progress⟩).1
        "<<<SLACK:done>>>ok<<<END_SLACK>>>".toList =
      (⟨false, [], [], some .done⟩, [⟨some .done, "ok".toList, false⟩]) := by
  have h := c5_unclosed_timeout_flush ⟨true, [], "oops".toList, some .progress⟩ rfl rfl
  exact ⟨h.2.2.1 (by decide), h.2.2.2.2⟩

/-! ### C2: finalisation effects, with awaits interleaved -/

theorem taskWeight_pos (t : FinTask) : 1 ≤ taskWeight t := by
  rcases t with ⟨c, ph⟩
  cases ph <;> simp [taskWeight]

theorem taskWeight_le (t : FinTask) : taskWeight t ≤ 2 := by
  rcases t with ⟨c, ph⟩
  cases ph <;> simp [taskWeight]

theorem pipeMeasure_le (l : List FinTask) : pipeMeasure l ≤ 2 * l.length := by
  induction l with
  | nil => simp [pipeMeasure]
  | cons t ts ih =>
    have h := taskWeight_le t
    simp only [pipeMeasure, List.map_cons, List.sum_cons, List.length_cons] at ih ⊢
    omega

/-- Draining the parked finalisations emits exactly one completion notice
per invocation still awaiting its router finish, one map removal per
parked invocation, and no router finishes. -/
theorem drainF_counts : ∀ (n : Nat) (pres exf tarm : Bool) (stat : SessStatus)
    (exc : Option Int) (tasks : List FinTask), pipeMeasure tasks ≤ n →
    (drainF n ⟨pres, exf, tarm, stat, exc, tasks⟩).2.countP isRouterFinish = 0 ∧
    (drainF n ⟨pres, exf, tarm, stat, exc, tasks⟩).2.countP isCompletionNotice =
      tasks.countP isAwaitingFinish ∧
    (drainF n ⟨pres, exf, tarm, stat, exc, tasks⟩).2.countP isMapRemove =
      tasks.length := by
  intro n
  induction n with
  | zero =>
    intro pres exf tarm stat exc tasks hm
    cases tasks with
    | nil => exact ⟨rfl, rfl, rfl⟩
    | cons t trest =>
      exfalso
      have h1 := taskWeight_pos t
      simp only [pipeMeasure, List.map_cons, List.sum_cons] at hm
      omega
  | succ n ih =>
    intro pres exf tarm stat exc tasks hm
    cases tasks with
    | nil => exact ⟨rfl, rfl, rfl⟩
    | cons t trest =>
      rcases t with ⟨c, ph⟩
      simp only [pipeMeasure, List.map_cons, List.sum_cons] at hm
      cases ph with
      | awaitingFinish =>
        have hm2 : pipeMeasure (trest ++ [(⟨c, .awaitingNotice⟩ : FinTask)]) ≤ n := by
          have w1 : taskWeight ⟨c, FinPhase.awaitingFinish⟩ = 2 := rfl
          rw [w1] at hm
          simp only [pipeMeasure, List.map_append, List.sum_append, List.map_cons,
            List.sum_cons, List.map_nil, List.sum_nil]
          have w2 : taskWeight ⟨c, FinPhase.awaitingNotice⟩ = 1 := rfl
          rw [w2]
          omega
        have hrec := ih pres exf tarm stat exc
          (trest ++ [⟨c, .awaitingNotice⟩]) hm2
        refine ⟨?_, ?_, ?_⟩
        · show (SessEffect.completionNotice c ::
              (drainF n ⟨pres, exf, tarm, stat, exc,
                trest ++ [⟨c, .awaitingNotice⟩]⟩).2).countP isRouterFinish = 0
          rw [List.countP_cons, hrec.1]
          rfl
        · show (SessEffect.completionNotice c ::
              (drainF n ⟨pres, exf, tarm, stat, exc,
                trest ++ [⟨c, .awaitingNotice⟩]⟩).2).countP isCompletionNotice =
            ((⟨c, FinPhase.awaitingFinish⟩ : FinTask) :: trest).countP
              isAwaitingFinish
          rw [List.countP_cons, hrec.2.1, List.countP_append]
          have s1 : List.countP isAwaitingFinish
              [(⟨c, FinPhase.awaitingNotice⟩ : FinTask)] = 0 := rfl
          have s2 : (if isCompletionNotice (SessEffect.completionNotice c) = true
              then 1 else 0) = 1 := rfl
          have s3 : List.countP isAwaitingFinish
              ((⟨c, FinPhase.awaitingFinish⟩ : FinTask) :: trest) =
              List.countP isAwaitingFinish trest + 1 := by
            rw [List.countP_cons]
            rfl
          rw [s1, s2, s3]
        · show (SessEffect.completionNotice c ::
              (drainF n ⟨pres, exf, tarm, stat, exc,
                trest ++ [⟨c, .awaitingNotice⟩]⟩).2).countP isMapRemove =
            ((⟨c, FinPhase.awaitingFinish⟩ : FinTask) :: trest).length
          rw [List.countP_cons, hrec.2.2, List.length_append]
          have s4 : (if isMapRemove (SessEffect.completionNotice c) = true
              then 1 else 0) = 0 := rfl
          have s5 : ((⟨c, FinPhase.awaitingFinish⟩ : FinTask) :: trest).length =
              trest.length + 1 := rfl
          have s6 : ([(⟨c, FinPhase.awaitingNotice⟩ : FinTask)] :
              List FinTask).length = 1 := rfl
          rw [s4, s5, s6]
      | awaitingNotice =>
        have hm2 : pipeMeasure trest ≤ n := by
          have w1 : taskWeight ⟨c, FinPhase.awaitingNotice⟩ = 1 := rfl
          rw [w1] at hm
          simp only [pipeMeasure]
          omega
        have hrec := ih false exf tarm stat exc trest hm2
        refine ⟨?_, ?_, ?_⟩
        · show (SessEffect.mapRemove ::
              (drainF n ⟨false, exf, tarm, stat, exc, trest⟩).2).countP
            isRouterFinish = 0
          rw [List.countP_cons, hrec.1]
          rfl
        · show (SessEffect.mapRemove ::
              (drainF n ⟨false, exf, tarm, stat, exc, trest⟩).2).countP
            isCompletionNotice =
            ((⟨c, FinPhase.awaitingNotice⟩ : FinTask) :: trest).countP
              isAwaitingFinish
          rw [List.countP_cons, hrec.2.1]
          have s7 : (if isCompletionNotice SessEffect.mapRemove = true
              then 1 else 0) = 0 := rfl
          have s8 : List.countP isAwaitingFinish
              ((⟨c, FinPhase.awaitingNotice⟩ : FinTask) :: trest) =
              List.countP isAwaitingFinish trest := by
            rw [List.countP_cons]
            have : (if isAwaitingFinish (⟨c, FinPhase.awaitingNotice⟩ : FinTask) =
                true then 1 else 0) = 0 := rfl
            rw [this]
            rfl
          rw [s7, s8]
          rfl
        · show (SessEffect.mapRemove ::
              (drainF n ⟨false, exf, tarm, stat, exc, trest⟩).2).countP
            isMapRemove =
            ((⟨c, FinPhase.awaitingNotice⟩ : FinTask) :: trest).length
          rw [List.countP_cons, hrec.2.2]
          have s9 : (if isMapRemove SessEffect.mapRemove = true
              then 1 else 0) = 1 := rfl
          have s10 : ((⟨c, FinPhase.awaitingNotice⟩ : FinTask) :: trest).length =
              trest.length + 1 := rfl
          rw [s9, s10]

/-- After the duplicate-exit guard is set and the timeout timer is no
longer armed, no later event initiates a new finalisation: the remaining
trace holds no router finish, and exactly the notices and removals owed by
the invocations already parked at an await. -/
theorem run_noentry : ∀ (es : List SessEvent) (pres : Bool) (stat : SessStatus)
    (exc : Option Int) (tasks : List FinTask),
    ((runSess ⟨pres, true, false, stat, exc, tasks⟩ es).2 ++
        (drain (runSess ⟨pres, true, false, stat, exc, tasks⟩ es).1).2).countP
      isRouterFinish = 0 ∧
    ((runSess ⟨pres, true, false, stat, exc, tasks⟩ es).2 ++
        (drain (runSess ⟨pres, true, false, stat, exc, tasks⟩ es).1).2).countP
      isCompletionNotice = tasks.countP isAwaitingFinish ∧
    ((runSess ⟨pres, true, false, stat, exc, tasks⟩ es).2 ++
        (drain (runSess ⟨pres, true, false, stat, exc, tasks⟩ es).1).2).countP
      isMapRemove = tasks.length := by
  intro es
  induction es with
  | nil =>
    intro pres stat exc tasks
    exact drainF_counts (2 * tasks.length) pres true false stat exc tasks
      (pipeMeasure_le tasks)
  | cons e rest ih =>
    intro pres stat exc tasks
    cases e with
    | exitFired code => exact ih pres stat exc tasks
    | timeoutFired => exact ih pres stat exc tasks
    | awaitResolved =>
      cases tasks with
      | nil => exact ih pres stat exc []
      | cons t trest =>
        rcases t with ⟨c, ph⟩
        cases ph with
        | awaitingFinish =>
          have hrec := ih pres stat exc (trest ++ [⟨c, .awaitingNotice⟩])
          refine ⟨?_, ?_, ?_⟩
          · show (SessEffect.completionNotice c ::
                ((runSess ⟨pres, true, false, stat, exc,
                    trest ++ [⟨c, .awaitingNotice⟩]⟩ rest).2 ++
                  (drain (runSess ⟨pres, true, false, stat, exc,
                    trest ++ [⟨c, .awaitingNotice⟩]⟩ rest).1).2)).countP
              isRouterFinish = 0
            rw [List.countP_cons, hrec.1]
            rfl
          · show (SessEffect.completionNotice c ::
                ((runSess ⟨pres, true, false, stat, exc,
                    trest ++ [⟨c, .awaitingNotice⟩]⟩ rest).2 ++
                  (drain (runSess ⟨pres, true, false, stat, exc,
                    trest ++ [⟨c, .awaitingNotice⟩]⟩ rest).1).2)).countP
              isCompletionNotice =
              ((⟨c, FinPhase.awaitingFinish⟩ : FinTask) :: trest).countP
                isAwaitingFinish
            rw [List.countP_cons, hrec.2.1, List.countP_append]
            have s1 : List.countP isAwaitingFinish
                [(⟨c, FinPhase.awaitingNotice⟩ : FinTask)] = 0 := rfl
            have s2 : (if isCompletionNotice (SessEffect.completionNotice c) = true
                then 1 else 0) = 1 := rfl
            have s3 : List.countP isAwaitingFinish
                ((⟨c, FinPhase.awaitingFinish⟩ : FinTask) :: trest) =
                List.countP isAwaitingFinish trest + 1 := by
              rw [List.countP_cons]
              rfl
            rw [s1, s2, s3]
          · show (SessEffect.completionNotice c ::
                ((runSess ⟨pres, true, false, stat, exc,
                    trest ++ [⟨c, .awaitingNotice⟩]⟩ rest).2 ++
                  (drain (runSess ⟨pres, true, false, stat, exc,
                    trest ++ [⟨c, .awaitingNotice⟩]⟩ rest).1).2)).countP
              isMapRemove =
              ((⟨c, FinPhase.awaitingFinish⟩ : FinTask) :: trest).length
            rw [List.countP_cons, hrec.2.2, List.length_append]
            have s4 : (if isMapRemove (SessEffect.completionNotice c) = true
                then 1 else 0) = 0 := rfl
            have s5 : ((⟨c, FinPhase.awaitingFinish⟩ : FinTask) :: trest).length =
                trest.length + 1 := rfl
            have s6 : ([(⟨c, FinPhase.awaitingNotice⟩ : FinTask)] :
                List FinTask).length = 1 := rfl
            rw [s4, s5, s6]
        | awaitingNotice =>
          have hrec := ih false stat exc trest
          refine ⟨?_, ?_, ?_⟩
          · show (SessEffect.mapRemove ::
                ((runSess ⟨false, true, false, stat, exc, trest⟩ rest).2 ++
                  (drain (runSess ⟨false, true, false, stat, exc,
                    trest⟩ rest).1).2)).countP isRouterFinish = 0
            rw [List.countP_cons, hrec.1]
            rfl
          · show (SessEffect.mapRemove ::
                ((runSess ⟨false, true, false, stat, exc, trest⟩ rest).2 ++
                  (drain (runSess ⟨false, true, false, stat, exc,
                    trest⟩ rest).1).2)).countP isCompletionNotice =
              ((⟨c, FinPhase.awaitingNotice⟩ : FinTask) :: trest).countP
                isAwaitingFinish
            rw [List.countP_cons, hrec.2.1]
            have s7 : (if isCompletionNotice SessEffect.mapRemove = true
                then 1 else 0) = 0 := rfl
            have s8 : List.countP isAwaitingFinish
                ((⟨c, FinPhase.awaitingNotice⟩ : FinTask) :: trest) =
                List.countP isAwaitingFinish trest := by
              rw [List.countP_cons]
              have h0 : (if isAwaitingFinish
                  (⟨c, FinPhase.awaitingNotice⟩ : FinTask) = true
                  then 1 else 0) = 0 := rfl
              rw [h0]
              rfl
            rw [s7, s8]
            rfl
          · show (SessEffect.mapRemove ::
                ((runSess ⟨false, true, false, stat, exc, trest⟩ rest).2 ++
                  (drain (runSess ⟨false, true, false, stat, exc,
                    trest⟩ rest).1).2)).countP isMapRemove =
              ((⟨c, FinPhase.awaitingNotice⟩ : FinTask) :: trest).length
            rw [List.countP_cons, hrec.2.2]
            have s9 : (if isMapRemove SessEffect.mapRemove = true
                then 1 else 0) = 1 := rfl
            have s10 : ((⟨c, FinPhase.awaitingNotice⟩ : FinTask) :: trest).length =
                trest.length + 1 := rfl
            rw [s9, s10]

/-- Counterexample to C2 as stated: when the session timeout fires first,
its `finalise` parks at the awaited router finish with the session still
in the map; the kill-induced process exit then passes the `exited` guard
(which the timeout path never set) and enters `finalise` again, so the
whole side-effect set — router finish, completion notice, map removal —
is performed twice, not once. -/
theorem c2_counterexample :
    (runSessDrain [.timeoutFired, .exitFired 1]).2.countP isRouterFinish = 2 ∧
    (runSessDrain [.timeoutFired, .exitFired 1]).2.countP isCompletionNotice = 2 ∧
    (runSessDrain [.timeoutFired, .exitFired 1]).2.countP isMapRemove = 2 ∧
    (runSessDrain [.timeoutFired, .exitFired 1]).2 =
      [.kill, .routerFinish (-1), .routerFinish 1,
        .completionNotice (-1), .completionNotice 1,
        .mapRemove, .mapRemove] := by
  refine ⟨?_, ?_, ?_, ?_⟩ <;> decide

/-- C2 (as amended): whenever the process-exit callback fires before any
timeout firing — in particular on a duplicate exit firing, and on an exit
followed by the session timeout — the finalisation side-effect set occurs
exactly once, whatever exits, timeouts and await resolutions follow in
whatever order: the exit path checks and sets the `exited` guard
synchronously, and entry to `finalise` clears the timeout timer
synchronously before its first await.  (The timeout-first interleaving is
the separately recorded counterexample.) -/
theorem c2_finalisation_exactly_once :
    ∀ (pre post : List SessEvent) (code : Int),
      (∀ e ∈ pre, e = SessEvent.awaitResolved) →
      (runSessDrain (pre ++ .exitFired code :: post)).2.countP isRouterFinish = 1 ∧
      (runSessDrain (pre ++ .exitFired code :: post)).2.countP isCompletionNotice = 1 ∧
      (runSessDrain (pre ++ .exitFired code :: post)).2.countP isMapRemove = 1 := by
  intro pre
  induction pre with
  | cons e pre2 ih =>
    intro post code hpre
    have he : e = SessEvent.awaitResolved := hpre e (List.mem_cons_self _ _)
    subst he
    have hred : runSessDrain ((SessEvent.awaitResolved :: pre2) ++
        .exitFired code :: post) =
        runSessDrain (pre2 ++ .exitFired code :: post) := rfl
    rw [hred]
    exact ih post code (fun e2 he2 => hpre e2 (List.mem_cons_of_mem _ he2))
  | nil =>
    intro post code _
    have hrds : (runSessDrain ([] ++ .exitFired code :: post)).2 =
        SessEffect.routerFinish code ::
          ((runSess ⟨true, true, false,
              if code = -1 then .timedOut else .exited, some code,
              [⟨code, .awaitingFinish⟩]⟩ post).2 ++
            (drain (runSess ⟨true, true, false,
              if code = -1 then .timedOut else .exited, some code,
              [⟨code, .awaitingFinish⟩]⟩ post).1).2) := rfl
    have hrun := run_noentry post true
      (if code = -1 then .timedOut else .exited) (some code)
      [⟨code, .awaitingFinish⟩]
    refine ⟨?_, ?_, ?_⟩
    · rw [hrds, List.countP_cons, hrun.1]
      rfl
    · rw [hrds, List.countP_cons, hrun.2.1]
      rfl
    · rw [hrds, List.countP_cons, hrun.2.2]
      rfl

/-- Witness for C2 as amended: a normal exit followed by a duplicate
firing, an await resolution and then the timeout yields each finalisation
effect exactly once. -/
theorem c2_finalisation_exactly_once_witness :
    (∀ e ∈ ([] : List SessEvent), e = SessEvent.awaitResolved) ∧
    ((runSessDrain ([] ++ .exitFired 0 ::
        [.exitFired 0, .awaitResolved, .timeoutFired])).2.countP
          isRouterFinish = 1 ∧
      (runSessDrain ([] ++ .exitFired 0 ::
        [.exitFired 0, .awaitResolved, .timeoutFired])).2.countP
          isCompletionNotice = 1 ∧
      (runSessDrain ([] ++ .exitFired 0 ::
        [.exitFired 0, .awaitResolved, .timeoutFired])).2.countP
          isMapRemove = 1) :=
  ⟨fun e he => absurd he (List.not_mem_nil e),
    c2_finalisation_exactly_once []
      [.exitFired 0, .awaitResolved, .timeoutFired] 0
      (fun e he => absurd he (List.not_mem_nil e))⟩

/-! ### C1: chunk-boundary invariance (counterexample and scenario) -/

set_option maxRecDepth 100000 in
/-- Counterexample to C1 as stated: an open marker whose (invalid) type tag
makes it 42 characters long is recognised when the input arrives as one
chunk, but is destroyed by the 40-character scan-tail trim when the same
input arrives one byte at a time — the two feeds emit different message
sequences. -/
theorem c1_counterexample :
    (pushManyCore initSt
      ("<<<SLACK:aaaaaaaaaaaaaaaaaaaaaaaaaaaaaa>>><<<end_slack>>>".toList.map
        (fun ch => [ch]))).2 ≠
    (pushManyCore initSt
      ["<<<SLACK:aaaaaaaaaaaaaaaaaaaaaaaaaaaaaa>>><<<end_slack>>>".toList]).2 := by
  decide

/-! ### C8: continuation id and flag injection across two spawns -/

/-- C8: for a one-shot command with a reusable session flag, the first
spawn and a thread-binding continuation spawn on the same channel and
thread key inject the identical flag/id pair (the plain thread-derived id);
for a command with a distinct create/resume flag pair, the first spawn
injects the create flag and the continuation spawn the resume flag, both
carrying the same deterministic UUID-derived continuation id. -/
theorem c8_continuation_flag_injection
    (channelId threadTs f g r : List Char) (cfgA cfgB : CmdConfig)
    (hAf : cfgA.sessionFlag = some f) (hAg : cfgA.sessionIdFlag = none)
    (hBf : cfgB.sessionFlag = none) (hBg : cfgB.sessionIdFlag = some g)
    (hBr : cfgB.resumeFlag = some r) :
    (sessionArgPair cfgA channelId threadTs none false =
        [f, slackSessionId channelId threadTs] ∧
      registerBinding cfgA channelId threadTs none false =
        some ⟨cfgA.trigger, slackSessionId channelId threadTs, channelId⟩ ∧
      sessionArgPair cfgA channelId threadTs
          (some (slackSessionId channelId threadTs)) true =
        [f, slackSessionId channelId threadTs]) ∧
    (sessionArgPair cfgB channelId threadTs none false =
        [g, stringToUuid (slackSessionId channelId threadTs)] ∧
      registerBinding cfgB channelId threadTs none false =
        some ⟨cfgB.trigger, stringToUuid (slackSessionId channelId threadTs), channelId⟩ ∧
      sessionArgPair cfgB channelId threadTs
          (some (stringToUuid (slackSessionId channelId threadTs))) true =
        [r, stringToUuid (slackSessionId channelId threadTs)]) := by
  constructor
  · refine ⟨?_, ?_, ?_⟩
    · simp [sessionArgPair, spawnSessionId, hAf, hAg]
    · simp [registerBinding, spawnSessionId, hAf, hAg]
    · simp [sessionArgPair, spawnSessionId, hAf]
  · refine ⟨?_, ?_, ?_⟩
    · simp [sessionArgPair, spawnSessionId, hBf, hBg]
    · simp [registerBinding, spawnSessionId, hBf, hBg]
    · simp [sessionArgPair, spawnSessionId, hBf, hBg, hBr]

/-- Witness for C8: a Kimi-style config (reusable `-S`) and a Claude-style
config (`--session-id` / `--resume`) on a concrete channel and thread. -/
theorem c8_continuation_flag_injection_witness :
    (sessionArgPair
        ⟨"kimi".toList, [], .oneShot, true, some "-p".toList, some "-S".toList, none, none⟩
        "C1".toList "42.7".toList none false =
      ["-S".toList, slackSessionId "C1".toList "42.7".toList] ∧
      registerBinding
        ⟨"kimi".toList, [], .oneShot, true, some "-p".toList, some "-S".toList, none, none⟩
        "C1".toList "42.7".toList none false =
      some ⟨"kimi".toList, slackSessionId "C1".toList "42.7".toList, "C1".toList⟩ ∧
      sessionArgPair
        ⟨"kimi".toList, [], .oneShot, true, some "-p".toList, some "-S".toList, none, none⟩
        "C1".toList "42.7".toList (some (slackSessionId "C1".toList "42.7".toList)) true =
      ["-S".toList, slackSessionId "C1".toList "42.7".toList]) ∧
    (sessionArgPair
        ⟨"claude".toList, [], .oneShot, true, some "-p".toList, none,
         some "--session-id".toList, some "--resume".toList⟩
        "C1".toList "42.7".toList none false =
      ["--session-id".toList, stringToUuid (slackSessionId "C1".toList "42.7".toList)] ∧
      registerBinding
        ⟨"claude".toList, [], .oneShot, true, some "-p".toList, none,
         some "--session-id".toList, some "--resume".toList⟩
        "C1".toList "42.7".toList none false =
      some ⟨"claude".toList, stringToUuid (slackSessionId "C1".toList "42.7".toList),
            "C1".toList⟩ ∧
      sessionArgPair
        ⟨"claude".toList, [], .oneShot, true, some "-p".toList, none,
         some "--session-id".toList, some "--resume".toList⟩
        "C1".toList "42.7".toList
        (some (stringToUuid (slackSessionId "C1".toList "42.7".toList))) true =
      ["--resume".toList, stringToUuid (slackSessionId "C1".toList "42.7".toList)]) :=
  c8_continuation_flag_injection "C1".toList "42.7".toList
    "-S".toList "--session-id".toList "--resume".toList _ _ rfl rfl rfl rfl rfl

/-! ### C9: `stringToUuid` determinism and UUID v5 shape -/

/-- Lowercase hexadecimal digit. -/
def isHexDigitLower (c : Char) : Bool :=
  ('0' ≤ c && c ≤ '9') || ('a' ≤ c && c ≤ 'f')

theorem toBE_length (n x : Nat) : (toBE n x).length = n := by
  simp [toBE]

theorem toBE_mem_lt {n x y : Nat} (h : y ∈ toBE n x) : y < 256 := by
  simp only [toBE, List.mem_map, List.mem_reverse, List.mem_range] at h
  obtain ⟨i, _, rfl⟩ := h
  exact Nat.mod_lt _ (by norm_num)

theorem sha1_length (m : List Nat) : (sha1 m).length = 20 := by
  simp [sha1, toBE_length]

theorem sha1_mem_lt {m : List Nat} {y : Nat} (h : y ∈ sha1 m) : y < 256 := by
  simp only [sha1, List.mem_append] at h
  rcases h with ((((h | h) | h) | h) | h) <;> exact toBE_mem_lt h

theorem hexDigit_hex : ∀ n, n < 16 → isHexDigitLower (hexDigit n) = true := by
  decide

theorem bytesToHex_length (bs : List Nat) : (bytesToHex bs).length = 2 * bs.length := by
  induction bs with
  | nil => rfl
  | cons b rest ih =>
    simp only [bytesToHex, List.flatMap_cons] at ih ⊢
    simp only [List.length_append, List.length_cons, List.length_nil, ih,
      List.length_nil]
    omega

theorem bytesToHex_hex {bs : List Nat} (h : ∀ b ∈ bs, b < 256) :
    (bytesToHex bs).all isHexDigitLower = true := by
  induction bs with
  | nil => rfl
  | cons b rest ih =>
    have hb := h b (by simp)
    have hdiv : b / 16 < 16 := by
      rw [Nat.div_lt_iff_lt_mul (by norm_num)]
      omega
    have hmod : b % 16 < 16 := Nat.mod_lt _ (by norm_num)
    simp only [bytesToHex, List.flatMap_cons, List.all_append, List.all_cons,
      List.all_nil, Bool.and_eq_true, Bool.and_true] at ih ⊢
    exact ⟨⟨hexDigit_hex _ hdiv, hexDigit_hex _ hmod⟩,
           ih (fun x hx => h x (by simp [hx]))⟩

theorem jsHexPad2_length (n : Nat) : (jsHexPad2 n).length = 2 := by
  unfold jsHexPad2
  split <;> rfl

theorem lor128 : ∀ y, y < 64 → y ||| 128 = 128 + y := by decide

/-- C9: `stringToUuid` is a pure deterministic function (equal inputs give
equal outputs), and for every input the output is a well-formed UUID v5:
five hyphen-separated groups of lowercase hex digits with lengths 8, 4, 4,
4 and 12, the third group beginning with `5` and the fourth group's first
digit among 8, 9, a, b. -/
theorem c9_stringToUuid_shape : ∀ s t : List Char,
    (s = t → stringToUuid s = stringToUuid t) ∧
    ∃ a b c d e : List Char,
      stringToUuid s = a ++ '-' :: (b ++ '-' :: (c ++ '-' :: (d ++ '-' :: e))) ∧
      a.length = 8 ∧ b.length = 4 ∧ c.length = 4 ∧ d.length = 4 ∧ e.length = 12 ∧
      (a ++ b ++ c ++ d ++ e).all isHexDigitLower = true ∧
      c.headD ' ' = '5' ∧
      (d.headD ' ' = '8' ∨ d.headD ' ' = '9' ∨ d.headD ' ' = 'a' ∨ d.headD ' ' = 'b') := by
  intro s t
  refine ⟨fun h => h ▸ rfl, ?_⟩
  set hash := bytesToHex (sha1 (strBytes (nsHex ++ s))) with hhash
  have hlen : hash.length = 40 := by
    rw [hhash, bytesToHex_length, sha1_length]
  have hall : hash.all isHexDigitLower = true :=
    bytesToHex_hex (fun b hb => sha1_mem_lt hb)
  have hmem : ∀ x ∈ hash, isHexDigitLower x = true := List.all_eq_true.mp hall
  set y := (16 * hexVal (hash.getD 16 '0') + hexVal (hash.getD 17 '0')) &&& 0x3f with hy
  have hy64 : y < 64 := by
    have := Nat.and_le_right (n := 16 * hexVal (hash.getD 16 '0') + hexVal (hash.getD 17 '0'))
      (m := 0x3f)
    omega
  have hvb : y ||| 128 = 128 + y := lor128 y hy64
  have hvb16 : ¬(y ||| 128 < 16) := by omega
  have hvbdiv : (y ||| 128) / 16 = 8 ∨ (y ||| 128) / 16 = 9 ∨
      (y ||| 128) / 16 = 10 ∨ (y ||| 128) / 16 = 11 := by
    rw [hvb]
    omega
  have hvbdivlt : (y ||| 128) / 16 < 16 := by
    rw [hvb, Nat.div_lt_iff_lt_mul (by norm_num)]
    omega
  have hvbmodlt : (y ||| 128) % 16 < 16 := Nat.mod_lt _ (by norm_num)
  refine ⟨hash.take 8, (hash.drop 8).take 4, '5' :: (hash.drop 13).take 3,
          jsHexPad2 (y ||| 128) ++ (hash.drop 18).take 2, (hash.drop 20).take 12,
          rfl, ?_, ?_, ?_, ?_, ?_, ?_, rfl, ?_⟩
  · simp [List.length_take, hlen]
  · simp [List.length_take, List.length_drop, hlen]
  · simp [List.length_take, List.length_drop, hlen]
  · simp [jsHexPad2_length, List.length_take, List.length_drop, hlen]
  · simp [List.length_take, List.length_drop, hlen]
  · have hsub : ∀ l : List Char, (∀ x ∈ l, x ∈ hash) →
        l.all isHexDigitLower = true := by
      intro l hl
      rw [List.all_eq_true]
      exact fun x hx => hmem x (hl x hx)
    have htake : ∀ n, (hash.take n).all isHexDigitLower = true :=
      fun n => hsub _ (fun x hx => List.take_subset _ _ hx)
    have hdroptake : ∀ m n, ((hash.drop m).take n).all isHexDigitLower = true :=
      fun m n => hsub _ (fun x hx => List.drop_subset _ _ (List.take_subset _ _ hx))
    have hpad : (jsHexPad2 (y ||| 128)).all isHexDigitLower = true := by
      unfold jsHexPad2
      rw [if_neg hvb16]
      simp only [List.all_cons, List.all_nil, Bool.and_true, Bool.and_eq_true]
      exact ⟨hexDigit_hex _ hvbdivlt, hexDigit_hex _ hvbmodlt⟩
    simp only [List.all_append, List.all_cons, Bool.and_eq_true]
    exact ⟨⟨⟨⟨htake 8, hdroptake 8 4⟩, rfl, hdroptake 13 3⟩, hpad, hdroptake 18 2⟩,
           hdroptake 20 12⟩
  · unfold jsHexPad2
    rw [if_neg hvb16]
    simp only [List.cons_append, List.headD_cons]
    rcases hvbdiv with h | h | h | h <;> rw [h]
    · exact Or.inl rfl
    · exact Or.inr (Or.inl rfl)
    · exact Or.inr (Or.inr (Or.inl rfl))
    · exact Or.inr (Or.inr (Or.inr rfl))

/-- Witness for C9: instantiated at a concrete thread-derived input. -/
theorem c9_stringToUuid_shape_witness :
    stringToUuid "slack-C1-42.7".toList = stringToUuid "slack-C1-42.7".toList ∧
    ∃ a b c d e : List Char,
      stringToUuid "slack-C1-42.7".toList =
        a ++ '-' :: (b ++ '-' :: (c ++ '-' :: (d ++ '-' :: e))) ∧
      a.length = 8 ∧ b.length = 4 ∧ c.length = 4 ∧ d.length = 4 ∧ e.length = 12 ∧
      (a ++ b ++ c ++ d ++ e).all isHexDigitLower = true ∧
      c.headD ' ' = '5' ∧
      (d.headD ' ' = '8' ∨ d.headD ' ' = '9' ∨ d.headD ' ' = 'a' ∨ d.headD ' ' = 'b') :=
  ⟨(c9_stringToUuid_shape "slack-C1-42.7".toList "slack-C1-42.7".toList).1 rfl,
   (c9_stringToUuid_shape "slack-C1-42.7".toList "slack-C1-42.7".toList).2⟩

/-! ### Characterisation of the lowercase-matching scanner -/

theorem swl_append {pat u v : List Char} (h : startsWithLower pat u = true) :
    startsWithLower pat (u ++ v) = true := by
  induction pat generalizing u with
  | nil => rfl
  | cons p ps ih =>
    cases u with
    | nil => exact absurd h (by simp [startsWithLower])
    | cons c cs =>
      simp only [startsWithLower, Bool.and_eq_true] at h
      simp only [List.cons_append, startsWithLower, Bool.and_eq_true]
      exact ⟨h.1, ih h.2⟩

theorem swl_of_append_le {pat u v : List Char}
    (h : startsWithLower pat (u ++ v) = true) (hle : pat.length ≤ u.length) :
    startsWithLower pat u = true := by
  induction pat generalizing u with
  | nil => rfl
  | cons p ps ih =>
    cases u with
    | nil => simp at hle
    | cons c cs =>
      simp only [List.cons_append, startsWithLower, Bool.and_eq_true] at h
      simp only [startsWithLower, Bool.and_eq_true]
      exact ⟨h.1, ih h.2 (by simpa using hle)⟩

/-- Pointwise characterisation of `startsWithLower`. -/
theorem swl_iff (pat s : List Char) :
    startsWithLower pat s = true ↔
      pat.length ≤ s.length ∧
        ∀ k, k < pat.length → (s[k]?).map asciiLower = pat[k]? := by
  induction pat generalizing s with
  | nil => simp [startsWithLower]
  | cons p ps ih =>
    cases s with
    | nil =>
      simp [startsWithLower]
    | cons c cs =>
      simp only [startsWithLower, Bool.and_eq_true, decide_eq_true_eq]
      constructor
      · rintro ⟨h1, h2⟩
        obtain ⟨hl, hp⟩ := (ih cs).mp h2
        refine ⟨by simpa using Nat.succ_le_succ hl, ?_⟩
        intro k hk
        cases k with
        | zero => simp [h1]
        | succ k => simpa using hp k (by simpa using hk)
      · rintro ⟨hl, hp⟩
        refine ⟨by simpa using hp 0 (by simp), (ih cs).mpr ⟨by simpa using hl, ?_⟩⟩
        intro k hk
        simpa using hp (k + 1) (by simpa using hk)

theorem closeTagLit_length : closeTagLit.length = 15 := rfl

/-- `indexOf` characterisation, forward construction: if the close tag
matches at `i` and nowhere earlier, `findClose` returns `i`. -/
theorem findClose_eq_of {l : List Char} {i : Nat}
    (h1 : startsWithLower closeTagLit (l.drop i) = true)
    (h2 : ∀ j, j < i → startsWithLower closeTagLit (l.drop j) = false) :
    findClose l = some i := by
  induction l generalizing i with
  | nil =>
    rw [List.drop_nil] at h1
    exact absurd h1 (by decide)
  | cons c cs ih =>
    cases i with
    | zero =>
      rw [findClose, if_pos (by simpa using h1)]
    | succ k =>
      have h0 : startsWithLower closeTagLit (c :: cs) = false := by
        simpa using h2 0 (by omega)
      rw [findClose, if_neg (by simp [h0])]
      have hrec := ih (i := k) (by simpa using h1)
        (fun j hj => by simpa using h2 (j + 1) (by omega))
      rw [hrec]
      rfl

/-- If `indexOf` fails, the close tag matches at no position. -/
theorem findClose_none_all : ∀ {l : List Char}, findClose l = none →
    ∀ j, startsWithLower closeTagLit (l.drop j) = false := by
  intro l
  induction l with
  | nil =>
    intro _ j
    rw [List.drop_nil]
    decide
  | cons c cs ih =>
    intro h j
    rw [findClose] at h
    by_cases hs : startsWithLower closeTagLit (c :: cs) = true
    · rw [if_pos hs] at h
      exact absurd h (by simp)
    · rw [if_neg hs] at h
      have hcs : findClose cs = none := by
        rcases hfc : findClose cs with _ | m
        · rfl
        · rw [hfc] at h
          exact absurd h (by simp)
      cases j with
      | zero =>
        rw [List.drop_zero]
        exact Bool.eq_false_iff.mpr hs
      | succ k =>
        rw [List.drop_succ_cons]
        exact ih hcs k

/-- The close tag does not overlap itself: no proper period. -/
theorem closeTag_no_period : ∀ k, k < 15 → 0 < k →
    ¬(∀ m, m < 15 → k ≤ m → closeTagLit[m]? = closeTagLit[m - k]?) := by
  decide

/-- Appending a (case-variant) close marker to close-tag-free text puts the
first close-tag occurrence exactly at the end of the text. -/
theorem findClose_append_marker {text cl : List Char}
    (hcl : startsWithLower closeTagLit cl = true) (hlen : cl.length = 15)
    (hno : findClose text = none) :
    findClose (text ++ cl) = some text.length := by
  apply findClose_eq_of
  · rw [List.drop_left]
    exact hcl
  · intro j hj
    by_cases hcase : j + 15 ≤ text.length
    · have hdj : (text ++ cl).drop j = text.drop j ++ cl :=
        List.drop_append_of_le_length (by omega)
      rw [hdj]
      by_contra hcon
      have hswl : startsWithLower closeTagLit (text.drop j ++ cl) = true :=
        Bool.not_eq_false _ |>.mp hcon
      have : startsWithLower closeTagLit (text.drop j) = true :=
        swl_of_append_le hswl (by rw [closeTagLit_length, List.length_drop]; omega)
      rw [findClose_none_all hno j] at this
      exact absurd this (by simp)
    · by_contra hcon
      have hswl : startsWithLower closeTagLit ((text ++ cl).drop j) = true :=
        Bool.not_eq_false _ |>.mp hcon
      obtain ⟨hle, hpt⟩ := (swl_iff _ _).mp hswl
      obtain ⟨hle2, hpt2⟩ := (swl_iff _ _).mp hcl
      apply closeTag_no_period (text.length - j) (by omega) (by omega)
      intro m hm15 hkm
      have h1 := hpt m (by rw [closeTagLit_length]; omega)
      have e1 : ((text ++ cl).drop j)[m]? = cl[j + m - text.length]? := by
        rw [List.getElem?_drop, List.getElem?_append_right (by omega)]
      have e2 : j + m - text.length = m - (text.length - j) := by omega
      have h2 := hpt2 (m - (text.length - j)) (by rw [closeTagLit_length]; omega)
      rw [e1, e2] at h1
      exact h1.symm.trans h2

/-! ### C4: typed open/close round-trip -/

/-- Counterexample to C4 as stated (for *every* text): a text containing
the close-marker byte sequence closes the envelope early — the single
emitted message carries the empty string, not the pushed text. -/
theorem c4_counterexample :
    (pushManyCore initSt ["<<<slack:done>>>".toList, "<<<END_SLACK>>>x".toList,
      "<<<END_SLACK>>>".toList]).2 ≠
    [⟨some .done, jsTrim (stripAnsi "<<<END_SLACK>>>x".toList), false⟩] := by
  decide

/-- C4 as amended: for every type tag of the closed set and every text in
which the close marker does not occur (case-insensitively), pushing the
open marker carrying that tag, then the text, then the close marker emits
exactly one envelope message with that type, the ANSI-stripped trimmed
text, and `incomplete` false. -/
theorem c4_round_trip (ty : EnvType) (text : List Char)
    (hno : findClose text = none) :
    (pushManyCore initSt [openMarker ty, text, closeMarker]).2 =
      [⟨some ty, jsTrim (stripAnsi text), false⟩] ∧
    (pushManyCore initSt [openMarker ty, text, closeMarker]).1 =
      ⟨false, [], [], some ty⟩ := by
  have hopen : pushCore initSt (openMarker ty) = (⟨true, [], [], some ty⟩, []) := by
    cases ty <;> rfl
  have htext : pushCore ⟨true, [], [], some ty⟩ text = (⟨true, [], text, some ty⟩, []) := by
    unfold pushCore
    rw [if_pos rfl]
    exact tryClose_none (by simpa using hno)
  have hclose : pushCore ⟨true, [], text, some ty⟩ closeMarker =
      (⟨false, [], [], some ty⟩, [⟨some ty, jsTrim (stripAnsi text), false⟩]) := by
    unfold pushCore
    rw [if_pos rfl]
    have hfc : findClose (text ++ closeMarker) = some text.length :=
      findClose_append_marker (by decide) (by decide) hno
    rw [tryClose_some (by simpa using hfc)]
    have htake : (text ++ closeMarker).take text.length = text := List.take_left _ _
    have hdrop : (text ++ closeMarker).drop (text.length + 15) = [] := by
      apply List.drop_eq_nil_of_le
      simp [closeMarker]
    simp only [htake, hdrop]
    rfl
  simp only [pushManyCore, hopen, htext, hclose]
  constructor <;> first
    | rfl
    | trivial

/-- Witness for C4 as amended: round-trip of a `warning` envelope with body
` hi there ` trims to `hi there`. -/
theorem c4_round_trip_witness :
    (pushManyCore initSt [openMarker .warning, " hi there ".toList, closeMarker]).2 =
      [⟨some .warning, jsTrim (stripAnsi " hi there ".toList), false⟩] ∧
    (pushManyCore initSt [openMarker .warning, " hi there ".toList, closeMarker]).1 =
      ⟨false, [], [], some .warning⟩ :=
  c4_round_trip .warning " hi there ".toList (by decide)

/-! ### Local structure of open-tag matches -/

theorem toNat_ofNat_valid (n : Nat) (h : n < 0xd800) : (Char.ofNat n).toNat = n := by
  unfold Char.ofNat
  rw [dif_pos (Or.inl h)]
  rfl

/-- Lowercasing never turns a word character into a left angle. -/
theorem word_not_lower_lt (c : Char) (hw : isWordChar c = true) :
    asciiLower c ≠ '<' := by
  intro heq
  unfold asciiLower at heq
  by_cases h : 'A' ≤ c ∧ c ≤ 'Z'
  · rw [if_pos h] at heq
    have h2 : c.toNat ≤ 90 := h.2
    have h1 : 65 ≤ c.toNat := h.1
    have hv : (Char.ofNat (c.toNat + 32)).toNat = c.toNat + 32 :=
      toNat_ofNat_valid _ (by omega)
    rw [heq] at hv
    have : (60 : Nat) = c.toNat + 32 := hv
    omega
  · rw [if_neg h] at heq
    subst heq
    exact absurd hw (by decide)

/-- A successful open-tag match implies the literal prefix matches. -/
theorem openMatchAt_some_swl {s : List Char} {x : Nat × Option (List Char)}
    (h : openMatchAt s = some x) : startsWithLower openLit s = true := by
  unfold openMatchAt at h
  by_cases h8 : startsWithLower openLit s
  · exact h8
  · simp [h8] at h

/-- Inside a match, past the three left angles, no character lowercases to a
left angle. -/
theorem openMatchAt_not_lt {u : List Char} {len : Nat} {ty : Option (List Char)}
    (h : openMatchAt u = some (len, ty)) :
    ∀ m, 3 ≤ m → m < len → (u[m]?).map asciiLower ≠ some '<' := by
  intro m hm3 hmlen
  unfold openMatchAt at h
  by_cases h8 : startsWithLower openLit u
  · simp only [h8, if_true] at h
    obtain ⟨hlen8, hpt8⟩ := (swl_iff openLit u).mp h8
    have holen : openLit.length = 8 := by decide
    by_cases ha : startsWithLower angles3 (u.drop 8)
    · simp only [ha, if_true, Option.some.injEq, Prod.mk.injEq] at h
      obtain ⟨hlen11, _⟩ := h
      obtain ⟨hlen3, hpt3⟩ := (swl_iff angles3 (u.drop 8)).mp ha
      rcases Nat.lt_or_ge m 8 with hm8 | hm8
      · have hfact := hpt8 m (by omega)
        rw [hfact]
        interval_cases m <;> decide
      · have hfact := hpt3 (m - 8) (by
          have : angles3.length = 3 := by decide
          omega)
        rw [List.getElem?_drop, (by omega : 8 + (m - 8) = m)] at hfact
        rw [hfact]
        have hk : m - 8 < 3 := by omega
        generalize m - 8 = k at hk
        interval_cases k <;> decide
    · simp only [ha, if_false] at h
      rcases hd8 : u.drop 8 with _ | ⟨c, w⟩ <;> rw [hd8] at h
      · exact absurd h (by simp)
      · by_cases hc : c = ':'
        · simp only [hc, if_true] at h
          by_cases hcond : 0 < (w.takeWhile isWordChar).length ∧
              startsWithLower angles3 (w.drop (w.takeWhile isWordChar).length)
          · simp only [hcond, if_true, Option.some.injEq, Prod.mk.injEq] at h
            obtain ⟨hlen12, _⟩ := h
            obtain ⟨hrl, hang⟩ := hcond
            obtain ⟨hlen3, hpt3⟩ := (swl_iff angles3 _).mp hang
            have hu : ∀ j, u[8 + j]? = (c :: w)[j]? := by
              intro j
              rw [← List.getElem?_drop, hd8]
            rcases Nat.lt_or_ge m 8 with hm8 | hm8
            · have hfact := hpt8 m (by omega)
              rw [hfact]
              interval_cases m <;> decide
            · rcases Nat.eq_or_lt_of_le hm8 with hmeq | hm9
              · have h8v := hu 0
                rw [← hmeq]
                simp only [Nat.add_zero, List.getElem?_cons_zero] at h8v
                rw [h8v, hc]
                decide
              · have hum : u[m]? = w[m - 9]? := by
                  have hm' := hu (m - 8)
                  rw [(by omega : 8 + (m - 8) = m)] at hm'
                  rw [hm', (by omega : m - 8 = (m - 9) + 1),
                    List.getElem?_cons_succ]
                rcases Nat.lt_or_ge (m - 9) (w.takeWhile isWordChar).length
                  with hword | hangle
                · have hw : w[m - 9]? = (w.takeWhile isWordChar)[m - 9]? := by
                    conv_lhs =>
                      rw [← List.takeWhile_append_dropWhile (p := isWordChar)
                        (l := w)]
                    rw [List.getElem?_append_left hword]
                  have hcw : (w.takeWhile isWordChar)[m - 9]? =
                      some ((w.takeWhile isWordChar).get ⟨m - 9, hword⟩) :=
                    List.getElem?_eq_getElem hword
                  have hmem : (w.takeWhile isWordChar).get ⟨m - 9, hword⟩ ∈
                      w.takeWhile isWordChar := List.getElem?_mem hcw
                  have hwc := List.mem_takeWhile_imp hmem
                  rw [hum, hw, hcw]
                  intro hcontra
                  simp only [Option.map_some', Option.some.injEq] at hcontra
                  exact word_not_lower_lt _ hwc hcontra
                · have hk : m - 9 - (w.takeWhile isWordChar).length < 3 := by
                    omega
                  have hfact := hpt3 (m - 9 - (w.takeWhile isWordChar).length)
                    (by
                      have : angles3.length = 3 := by decide
                      omega)
                  rw [List.getElem?_drop,
                    (by omega : (w.takeWhile isWordChar).length +
                      (m - 9 - (w.takeWhile isWordChar).length) = m - 9)] at hfact
                  rw [hum, hfact]
                  generalize m - 9 - (w.takeWhile isWordChar).length = k at hk
                  interval_cases k <;> decide
          · simp [hcond] at h
        · simp [hc] at h
  · simp [h8] at h

/-- Position 3 of a match lowercases to the letter s. -/
theorem openMatchAt_pos3 {u : List Char} {x : Nat × Option (List Char)}
    (h : openMatchAt u = some x) : (u[3]?).map asciiLower = some 's' := by
  have h8 := openMatchAt_some_swl h
  obtain ⟨_, hpt⟩ := (swl_iff openLit u).mp h8
  have := hpt 3 (by decide)
  rw [this]
  decide

/-- No open-tag match starts strictly inside another open-tag match. -/
theorem openMatchAt_no_nest {u : List Char} {len : Nat} {ty : Option (List Char)}
    (h : openMatchAt u = some (len, ty)) :
    ∀ d, 0 < d → d < len → openMatchAt (u.drop d) = none := by
  intro d hd0 hdlen
  rcases hx : openMatchAt (u.drop d) with _ | x
  · rfl
  · exfalso
    have hsw := openMatchAt_some_swl hx
    obtain ⟨hle, hpt⟩ := (swl_iff openLit (u.drop d)).mp hsw
    rcases Nat.lt_or_ge d 3 with hd3 | hd3
    · have hfact := hpt (3 - d) (by
        have : openLit.length = 8 := by decide
        omega)
      rw [List.getElem?_drop, (by omega : d + (3 - d) = 3)] at hfact
      rw [openMatchAt_pos3 h] at hfact
      have : openLit[3 - d]? = some 's' := hfact.symm
      have hk : 3 - d < 3 := by omega
      have hk0 : 0 < 3 - d := by omega
      generalize 3 - d = k at this hk hk0
      interval_cases k <;> simp [openLit] at this
    · have hfact := hpt 0 (by decide)
      rw [List.getElem?_drop, Nat.add_zero] at hfact
      exact openMatchAt_not_lt h d hd3 hdlen (by
        rw [hfact]
        decide)

/-- If a `takeWhile` run over an appended list stops inside the left part,
it equals the run over the left part alone. -/
theorem takeWhile_append_stop_left {p : Char → Bool} {w v : List Char}
    (h : ((w ++ v).takeWhile p).length < w.length) :
    (w ++ v).takeWhile p = w.takeWhile p := by
  have hne : ¬(w.takeWhile p).length = w.length := by
    intro hall
    rw [List.takeWhile_append, if_pos hall, List.length_append] at h
    omega
  rw [List.takeWhile_append, if_neg hne]

/-- An open-tag match is stable under extending the text to the right. -/
theorem openMatchAt_append {u v : List Char} {len : Nat} {ty : Option (List Char)}
    (h : openMatchAt u = some (len, ty)) :
    openMatchAt (u ++ v) = some (len, ty) := by
  have hb := openMatchAt_bounds h
  unfold openMatchAt at h ⊢
  by_cases h8 : startsWithLower openLit u
  · have h8' : startsWithLower openLit (u ++ v) = true := swl_append h8
    simp only [h8, if_true] at h
    simp only [h8', if_true]
    by_cases ha : startsWithLower angles3 (u.drop 8)
    · have h11 : 11 ≤ u.length := by
        have := startsWithLower_length ha
        rw [List.length_drop] at this
        have : angles3.length = 3 := by decide
        omega
      have hdrop : (u ++ v).drop 8 = u.drop 8 ++ v :=
        List.drop_append_of_le_length (by omega)
      have ha' : startsWithLower angles3 ((u ++ v).drop 8) = true := by
        rw [hdrop]
        exact swl_append ha
      simp only [ha, if_true] at h
      simp only [ha', if_true]
      exact h
    · simp only [ha, if_false] at h
      rcases hd8 : u.drop 8 with _ | ⟨c, w⟩ <;> rw [hd8] at h
      · exact absurd h (by simp)
      · have h9 : 9 ≤ u.length := by
          have hl : (u.drop 8).length = u.length - 8 := List.length_drop 8 u
          rw [hd8] at hl
          simp only [List.length_cons] at hl
          omega
        have hdrop : (u ++ v).drop 8 = c :: (w ++ v) := by
          rw [List.drop_append_of_le_length (by omega), hd8]
          rfl
        rw [hdrop]
        by_cases hc : c = ':'
        · simp only [hc, if_true] at h
          by_cases hcond : 0 < (w.takeWhile isWordChar).length ∧
              startsWithLower angles3 (w.drop (w.takeWhile isWordChar).length)
          · simp only [hcond, if_true] at h
            obtain ⟨hrl, hang⟩ := hcond
            have hbl : (w.takeWhile isWordChar).length < w.length := by
              have := startsWithLower_length hang
              rw [List.length_drop] at this
              have h3 : angles3.length = 3 := by decide
              omega
            have ha' : startsWithLower angles3 (c :: (w ++ v)) = false := by
              rw [hc]
              have hcol : asciiLower ':' = ':' := by decide
              simp [angles3, startsWithLower, hcol]
            simp only [ha', Bool.false_eq_true, if_false]
            have htw : (w ++ v).takeWhile isWordChar = w.takeWhile isWordChar := by
              rw [List.takeWhile_append, if_neg (by omega)]
            have hdw : (w ++ v).drop (w.takeWhile isWordChar).length =
                w.drop (w.takeWhile isWordChar).length ++ v :=
              List.drop_append_of_le_length (by omega)
            simp only [hc, if_true, htw, hdw]
            rw [if_pos ⟨hrl, swl_append hang⟩]
            exact h
          · simp [hcond] at h
        · simp [hc] at h
  · simp [h8] at h

/-- An open-tag match in extended text that fits inside the original text
already matches there. -/
theorem openMatchAt_of_append_le {u v : List Char} {len : Nat}
    {ty : Option (List Char)} (h : openMatchAt (u ++ v) = some (len, ty))
    (hle : len ≤ u.length) : openMatchAt u = some (len, ty) := by
  have hb := openMatchAt_bounds h
  unfold openMatchAt at h ⊢
  by_cases h8 : startsWithLower openLit (u ++ v)
  · have h8' : startsWithLower openLit u = true :=
      swl_of_append_le h8 (by
        have : openLit.length = 8 := by decide
        omega)
    simp only [h8, if_true] at h
    simp only [h8', if_true]
    by_cases ha : startsWithLower angles3 ((u ++ v).drop 8)
    · simp only [ha, if_true, Option.some.injEq, Prod.mk.injEq] at h
      obtain ⟨hlen, hty⟩ := h
      have h11 : 11 ≤ u.length := by omega
      have hdrop : (u ++ v).drop 8 = u.drop 8 ++ v :=
        List.drop_append_of_le_length (by omega)
      rw [hdrop] at ha
      have ha' : startsWithLower angles3 (u.drop 8) = true :=
        swl_of_append_le ha (by
          rw [List.length_drop]
          have : angles3.length = 3 := by decide
          omega)
      simp only [ha', if_true, hlen, hty]
    · simp only [ha, if_false] at h
      rcases hd8 : (u ++ v).drop 8 with _ | ⟨c, w0⟩ <;> rw [hd8] at h
      · exact absurd h (by simp)
      · by_cases hc : c = ':'
        · simp only [hc, if_true] at h
          by_cases hcond : 0 < (w0.takeWhile isWordChar).length ∧
              startsWithLower angles3 (w0.drop (w0.takeWhile isWordChar).length)
          · simp only [hcond, if_true, Option.some.injEq, Prod.mk.injEq] at h
            obtain ⟨hlen, hty⟩ := h
            obtain ⟨hrl, hang⟩ := hcond
            have h13 : 12 + (w0.takeWhile isWordChar).length ≤ u.length := by
              omega
            have hdrop : (u ++ v).drop 8 = u.drop 8 ++ v :=
              List.drop_append_of_le_length (by omega)
            rw [hdrop] at hd8
            rcases hu8 : u.drop 8 with _ | ⟨c1, w⟩
            · rw [hu8, List.nil_append] at hd8
              have hL : (u.drop 8).length = u.length - 8 := List.length_drop 8 u
              rw [hu8] at hL
              simp only [List.length_nil] at hL
              omega
            · rw [hu8] at hd8
              simp only [List.cons_append, List.cons.injEq] at hd8
              obtain ⟨hc1, hw0⟩ := hd8
              subst hc1
              subst hw0
              have hwlen : w.length = u.length - 9 := by
                have hL := List.length_drop 8 u
                rw [hu8] at hL
                simp only [List.length_cons] at hL
                omega
              have hbl : ((w ++ v).takeWhile isWordChar).length < w.length := by
                omega
              have htw := takeWhile_append_stop_left hbl
              rw [htw] at hbl hrl hang h13
              have hang2 : startsWithLower angles3
                  (w.drop (w.takeWhile isWordChar).length) = true := by
                rw [List.drop_append_of_le_length (by omega)] at hang
                exact swl_of_append_le hang (by
                  rw [List.length_drop]
                  have : angles3.length = 3 := by decide
                  omega)
              have ha2 : startsWithLower angles3 (c1 :: w) = false := by
                rw [hc]
                have hcol : asciiLower ':' = ':' := by decide
                simp [angles3, startsWithLower, hcol]
              rw [htw]
              simp only [ha2, Bool.false_eq_true, if_false]
              simp only [hc, if_true]
              rw [if_pos ⟨hrl, hang2⟩]
          · simp [hcond] at h
        · simp [hc] at h
  · simp [h8] at h

/-! ### Canonical equations of the untrimmed reference parser -/

theorem uFuel_spec : ∀ fuel : Nat,
    (∀ st : ParserSt, parserMeasure st < fuel →
      uScanF fuel st = uTryScanOpen st) ∧
    (∀ st : ParserSt, parserMeasure st < fuel →
      uCloseF fuel st = uTryClose st) := by
  intro fuel
  induction fuel using Nat.strong_induction_on with
  | _ fuel ih =>
    match fuel with
    | 0 => exact ⟨fun st h => absurd h (by omega), fun st h => absurd h (by omega)⟩
    | fuel + 1 =>
      constructor
      · intro st hm
        show uScanF (fuel + 1) st = uScanF (parserMeasure st + 1) st
        rcases hfo : findOpen st.scanBuffer with _ | ⟨i, len, rawTy⟩
        · simp only [uScanF, hfo]
        · have hb := findOpen_bounds hfo
          simp only [uScanF, hfo]
          set st2 : ParserSt :=
            { capturing := true, scanBuffer := [],
              captureBuffer := st.scanBuffer.drop (i + len),
              currentType := validType rawTy } with hst2
          have hm2 : parserMeasure st2 < parserMeasure st := by
            simp only [hst2, parserMeasure, List.length_drop, List.length_nil]
            omega
          have h1 : uCloseF fuel st2 = uTryClose st2 :=
            (ih fuel (by omega)).2 st2 (by omega)
          have h2 : uCloseF (parserMeasure st) st2 = uTryClose st2 :=
            (ih (parserMeasure st) (by omega)).2 st2 (by omega)
          rw [h1, ← h2]
      · intro st hm
        show uCloseF (fuel + 1) st = uCloseF (parserMeasure st + 1) st
        rcases hfc : findClose st.captureBuffer with _ | idx
        · simp only [uCloseF, hfc]
        · have hb := findClose_bounds hfc
          simp only [uCloseF, hfc]
          set st2 : ParserSt :=
            { capturing := false, scanBuffer := st.captureBuffer.drop (idx + 15),
              captureBuffer := [], currentType := st.currentType } with hst2
          by_cases hre : (st.captureBuffer.drop (idx + 15)).isEmpty
          · simp only [hre, if_true]
          · simp only [hre, if_false]
            have hm2 : parserMeasure st2 < parserMeasure st := by
              simp only [hst2, parserMeasure, List.length_drop, List.length_nil]
              omega
            have h1 : uScanF fuel st2 = uTryScanOpen st2 :=
              (ih fuel (by omega)).1 st2 (by omega)
            have h2 : uScanF (parserMeasure st) st2 = uTryScanOpen st2 :=
              (ih (parserMeasure st) (by omega)).1 st2 (by omega)
            rw [h1, ← h2]

theorem uScan_none {st : ParserSt} (h : findOpen st.scanBuffer = none) :
    uTryScanOpen st = (st, []) := by
  show uScanF (parserMeasure st + 1) st = _
  simp only [uScanF, h]

theorem uScan_some {st : ParserSt} {i len : Nat} {rawTy : Option (List Char)}
    (h : findOpen st.scanBuffer = some (i, len, rawTy)) :
    uTryScanOpen st =
      uTryClose { capturing := true, scanBuffer := [],
                  captureBuffer := st.scanBuffer.drop (i + len),
                  currentType := validType rawTy } := by
  have hb := findOpen_bounds h
  show uScanF (parserMeasure st + 1) st = _
  simp only [uScanF, h]
  exact (uFuel_spec (parserMeasure st)).2 _
    (by simp only [parserMeasure, List.length_drop, List.length_nil]; omega)

theorem uClose_none {st : ParserSt} (h : findClose st.captureBuffer = none) :
    uTryClose st = (st, []) := by
  show uCloseF (parserMeasure st + 1) st = _
  simp only [uCloseF, h]

theorem uClose_some {st : ParserSt} {idx : Nat}
    (h : findClose st.captureBuffer = some idx) :
    uTryClose st =
      (let msg : EnvMsg :=
        ⟨st.currentType, jsTrim (stripAnsi (st.captureBuffer.take idx)), false⟩
      let remainder := st.captureBuffer.drop (idx + 15)
      let st2 : ParserSt :=
        { capturing := false, scanBuffer := remainder,
          captureBuffer := [], currentType := st.currentType }
      if remainder.isEmpty then (st2, [msg])
      else
        let r := uTryScanOpen st2
        (r.1, msg :: r.2)) := by
  have hb := findClose_bounds h
  show uCloseF (parserMeasure st + 1) st = _
  simp only [uCloseF, h]
  by_cases hre : (st.captureBuffer.drop (idx + 15)).isEmpty
  · simp only [hre, if_true]
  · simp only [hre, if_false]
    have := (uFuel_spec (parserMeasure st)).1
      ({ capturing := false, scanBuffer := st.captureBuffer.drop (idx + 15),
         captureBuffer := [], currentType := st.currentType })
      (by simp only [parserMeasure, List.length_drop, List.length_nil]; omega)
    rw [this]

/-! ### Boundedness of open markers -/

theorem openBounded_spec {l : List Char} (hb : OpenBounded l) {j len : Nat}
    {ty : Option (List Char)} (h : openMatchAt (l.drop j) = some (len, ty)) :
    len ≤ 41 := by
  by_cases hj : j < l.length
  · have := hb j hj
    unfold openBoundedAtB at this
    rw [h] at this
    simpa using this
  · rw [List.drop_eq_nil_of_le (by omega)] at h
    have hnil : openMatchAt ([] : List Char) = none := by decide
    rw [hnil] at h
    exact absurd h (by simp)

theorem openBounded_drop {l : List Char} (hb : OpenBounded l) (m : Nat) :
    OpenBounded (l.drop m) := by
  intro j hj
  unfold openBoundedAtB
  rcases h : openMatchAt ((l.drop m).drop j) with _ | ⟨len, ty⟩
  · rfl
  · rw [List.drop_drop] at h
    simpa using openBounded_spec hb h

theorem openBounded_take {l : List Char} (hb : OpenBounded l) (m : Nat) :
    OpenBounded (l.take m) := by
  intro j hj
  unfold openBoundedAtB
  rcases h : openMatchAt ((l.take m).drop j) with _ | ⟨len, ty⟩
  · rfl
  · rw [List.length_take] at hj
    have hjm : j ≤ m := by omega
    have hd : (l.take m).drop j = (l.drop j).take (m - j) := by
      rw [List.drop_take]
    rw [hd] at h
    have hext : openMatchAt ((l.drop j).take (m - j) ++ (l.drop j).drop (m - j)) =
        some (len, ty) := openMatchAt_append h
    rw [List.take_append_drop] at hext
    simpa using openBounded_spec hb hext

theorem suffix_trans {a b c : List Char} (h1 : ∃ q, q ++ a = b)
    (h2 : ∃ q, q ++ b = c) : ∃ q, q ++ a = c := by
  obtain ⟨q1, hq1⟩ := h1
  obtain ⟨q2, hq2⟩ := h2
  exact ⟨q2 ++ q1, by rw [List.append_assoc, hq1, hq2]⟩

theorem suffix_drop (l : List Char) (n : Nat) : ∃ q, q ++ l.drop n = l :=
  ⟨l.take n, List.take_append_drop n l⟩

/-- A suffix of a list bounded within a larger bounded context: if
`mid ++ rest` is a suffix of `big` and `big` is open-bounded, so is `mid`. -/
theorem openBounded_of_suffix_take {big mid : List Char}
    (hb : OpenBounded big) (h : ∃ q rest, (q ++ mid) ++ rest = big) :
    OpenBounded mid := by
  obtain ⟨q, rest, hqr⟩ := h
  have h1 : OpenBounded ((q ++ mid) ++ rest) := by rw [hqr]; exact hb
  have h2 : OpenBounded (q ++ mid) := by
    have := openBounded_take h1 (q ++ mid).length
    rwa [List.take_left] at this
  have h3 := openBounded_drop h2 q.length
  rwa [List.drop_left] at h3

/-! ### Characterisation of the leftmost open-tag search -/

theorem findOpen_spec : ∀ {l : List Char} {i len : Nat} {ty : Option (List Char)},
    findOpen l = some (i, len, ty) →
    openMatchAt (l.drop i) = some (len, ty) ∧
      ∀ j, j < i → openMatchAt (l.drop j) = none := by
  intro l
  induction l with
  | nil =>
    intro i len ty h
    exact absurd h (by simp [findOpen])
  | cons c cs ih =>
    intro i len ty h
    rw [findOpen] at h
    rcases hm : openMatchAt (c :: cs) with _ | ⟨len0, ty0⟩ <;> rw [hm] at h
    · simp only [Option.map_eq_some'] at h
      obtain ⟨⟨i', len', ty'⟩, hfo, heq⟩ := h
      simp only [Prod.mk.injEq] at heq
      obtain ⟨hi, hlen, hty⟩ := heq
      subst hi; subst hlen; subst hty
      obtain ⟨hspec, hmin⟩ := ih hfo
      constructor
      · rw [List.drop_succ_cons]
        exact hspec
      · intro j hj
        cases j with
        | zero => simpa using hm
        | succ k =>
          rw [List.drop_succ_cons]
          exact hmin k (by omega)
    · simp only [Option.some.injEq, Prod.mk.injEq] at h
      obtain ⟨hi, hlen, hty⟩ := h
      subst hi; subst hlen; subst hty
      exact ⟨by simpa using hm, fun j hj => absurd hj (by omega)⟩

theorem findOpen_eq_of : ∀ {l : List Char} {i len : Nat} {ty : Option (List Char)},
    openMatchAt (l.drop i) = some (len, ty) →
    (∀ j, j < i → openMatchAt (l.drop j) = none) →
    findOpen l = some (i, len, ty) := by
  intro l
  induction l with
  | nil =>
    intro i len ty h1 _
    rw [List.drop_nil] at h1
    have hnil : openMatchAt ([] : List Char) = none := by decide
    rw [hnil] at h1
    exact absurd h1 (by simp)
  | cons c cs ih =>
    intro i len ty h1 h2
    cases i with
    | zero =>
      rw [List.drop_zero] at h1
      simp only [findOpen, h1]
    | succ k =>
      have h0 : openMatchAt (c :: cs) = none := by simpa using h2 0 (by omega)
      rw [List.drop_succ_cons] at h1
      have hrec := ih h1 (fun j hj => by
        have hj1 := h2 (j + 1) (by omega)
        rwa [List.drop_succ_cons] at hj1)
      simp only [findOpen, h0, hrec]
      rfl

theorem findOpen_none_all : ∀ {l : List Char}, findOpen l = none →
    ∀ j, openMatchAt (l.drop j) = none := by
  intro l
  induction l with
  | nil =>
    intro _ j
    rw [List.drop_nil]
    decide
  | cons c cs ih =>
    intro h j
    rw [findOpen] at h
    rcases hm : openMatchAt (c :: cs) with _ | x <;> rw [hm] at h
    · have hcs : findOpen cs = none := by
        rcases hfo : findOpen cs with _ | y
        · rfl
        · rw [hfo] at h
          exact absurd h (by simp)
      cases j with
      | zero => simpa using hm
      | succ k =>
        rw [List.drop_succ_cons]
        exact ih hcs k
    · exact absurd h (by simp)

/-- The leftmost open-tag match survives appending text on the right: a
later chunk can neither move it nor create an earlier one. -/
theorem findOpen_append {s b : List Char} {i len : Nat} {ty : Option (List Char)}
    (h : findOpen s = some (i, len, ty)) :
    findOpen (s ++ b) = some (i, len, ty) := by
  obtain ⟨hmi, hnone⟩ := findOpen_spec h
  have hb := findOpen_bounds h
  apply findOpen_eq_of
  · rw [List.drop_append_of_le_length (by omega)]
    exact openMatchAt_append hmi
  · intro j hj
    rcases hx : openMatchAt ((s ++ b).drop j) with _ | ⟨len2, ty2⟩
    · rfl
    · exfalso
      have hjs : j ≤ s.length := by omega
      rw [List.drop_append_of_le_length hjs] at hx
      by_cases hfit : len2 ≤ (s.drop j).length
      · have hin := openMatchAt_of_append_le hx hfit
        rw [hnone j hj] at hin
        exact absurd hin (by simp)
      · rw [List.length_drop] at hfit
        have hd : 0 < i - j := by omega
        have hdlen : i - j < len2 := by omega
        have hnest := openMatchAt_no_nest hx (i - j) hd hdlen
        rw [List.drop_append_of_le_length
          (by rw [List.length_drop]; omega : i - j ≤ (s.drop j).length),
          List.drop_drop, (by omega : j + (i - j) = i)] at hnest
        have hext := openMatchAt_append (v := b) hmi
        rw [hnest] at hext
        exact absurd hext (by simp)

theorem findOpen_drop {l : List Char} {i len : Nat} {ty : Option (List Char)}
    {δ : Nat} (h : findOpen l = some (i, len, ty)) (hδ : δ ≤ i) :
    findOpen (l.drop δ) = some (i - δ, len, ty) := by
  obtain ⟨hmi, hnone⟩ := findOpen_spec h
  apply findOpen_eq_of
  · rw [List.drop_drop, (by omega : δ + (i - δ) = i)]
    exact hmi
  · intro j hj
    rw [List.drop_drop]
    exact hnone (δ + j) (by omega)

theorem findOpen_drop_none {l : List Char} (h : findOpen l = none) (δ : Nat) :
    findOpen (l.drop δ) = none := by
  rcases hx : findOpen (l.drop δ) with _ | ⟨i, len, ty⟩
  · rfl
  · exfalso
    obtain ⟨hmi, _⟩ := findOpen_spec hx
    rw [List.drop_drop] at hmi
    rw [findOpen_none_all h (δ + i)] at hmi
    exact absurd hmi (by simp)

/-- Normal form of a suffix-by-drop: the drop distance can be taken to be
the length difference. -/
theorem drop_norm {S T : List Char} (δ : Nat) (h : T = S.drop δ) :
    T = S.drop (S.length - T.length) := by
  subst h
  rw [List.length_drop]
  by_cases hle : δ ≤ S.length
  · congr 1
    omega
  · rw [List.drop_eq_nil_of_le (by omega), List.drop_eq_nil_of_le (by omega)]

/-! ### Characterisation of the close-tag search, forward direction -/

theorem findClose_spec : ∀ {l : List Char} {i : Nat}, findClose l = some i →
    startsWithLower closeTagLit (l.drop i) = true ∧
      ∀ j, j < i → startsWithLower closeTagLit (l.drop j) = false := by
  intro l
  induction l with
  | nil =>
    intro i h
    exact absurd h (by simp [findClose])
  | cons c cs ih =>
    intro i h
    rw [findClose] at h
    by_cases hs : startsWithLower closeTagLit (c :: cs)
    · simp only [hs, if_true, Option.some.injEq] at h
      subst h
      exact ⟨by simpa using hs, fun j hj => absurd hj (by omega)⟩
    · rw [if_neg hs] at h
      rcases hfc : findClose cs with _ | k <;> rw [hfc] at h
      · exact absurd h (by simp)
      · simp only [Option.map_some', Option.some.injEq] at h
        subst h
        obtain ⟨hsp, hmin⟩ := ih hfc
        constructor
        · rw [List.drop_succ_cons]
          exact hsp
        · intro j hj
          cases j with
          | zero =>
            rw [List.drop_zero]
            exact Bool.eq_false_iff.mpr hs
          | succ m =>
            rw [List.drop_succ_cons]
            exact hmin m (by omega)

/-- The close-tag index survives appending text on the right. -/
theorem findClose_append_left {l b : List Char} {idx : Nat}
    (h : findClose l = some idx) : findClose (l ++ b) = some idx := by
  obtain ⟨hsp, hmin⟩ := findClose_spec h
  have hb := findClose_bounds h
  apply findClose_eq_of
  · rw [List.drop_append_of_le_length (by omega)]
    exact swl_append hsp
  · intro j hj
    rw [List.drop_append_of_le_length (by omega : j ≤ l.length)]
    by_contra hcon
    have hswl : startsWithLower closeTagLit (l.drop j ++ b) = true :=
      Bool.not_eq_false _ |>.mp hcon
    have hin : startsWithLower closeTagLit (l.drop j) = true :=
      swl_of_append_le hswl
        (by rw [closeTagLit_length, List.length_drop]; omega)
    rw [hmin j hj] at hin
    exact absurd hin (by simp)

/-! ### The untrimmed parser composes along concatenation -/

/-- Core composition lemma: for the untrimmed reference parser, running a
scan (or close) and then pushing a further chunk equals running the scan
(or close) with the chunk already appended to the live buffer. -/
theorem uAppend : ∀ n : Nat,
    (∀ (sb cb : List Char) (ct : Option EnvType) (b : List Char),
      sb.length + cb.length ≤ n →
      uPushAfter (uTryScanOpen ⟨false, sb, cb, ct⟩) b =
        uTryScanOpen ⟨false, sb ++ b, cb, ct⟩) ∧
    (∀ (sb cb : List Char) (ct : Option EnvType) (b : List Char),
      sb.length + cb.length ≤ n →
      uPushAfter (uTryClose ⟨true, sb, cb, ct⟩) b =
        uTryClose ⟨true, sb, cb ++ b, ct⟩) := by
  intro n
  induction n using Nat.strong_induction_on with
  | _ n ih =>
    constructor
    · intro sb cb ct b hn
      rcases hfo : findOpen sb with _ | ⟨i, len, ty⟩
      · rw [@uScan_none ⟨false, sb, cb, ct⟩ hfo]
        rfl
      · have hb := findOpen_bounds hfo
        rw [@uScan_some ⟨false, sb, cb, ct⟩ i len ty hfo]
        show uPushAfter (uTryClose ⟨true, [], sb.drop (i + len), validType ty⟩) b = _
        have hlt : ([] : List Char).length + (sb.drop (i + len)).length < n := by
          simp only [List.length_nil, List.length_drop]
          omega
        rw [(ih _ hlt).2 [] (sb.drop (i + len)) (validType ty) b (le_refl _)]
        have hfo2 : findOpen (sb ++ b) = some (i, len, ty) := findOpen_append hfo
        rw [@uScan_some ⟨false, sb ++ b, cb, ct⟩ i len ty hfo2]
        show uTryClose ⟨true, [], sb.drop (i + len) ++ b, validType ty⟩ =
          uTryClose ⟨true, [], (sb ++ b).drop (i + len), validType ty⟩
        rw [List.drop_append_of_le_length (by omega)]
    · intro sb cb ct b hn
      rcases hfc : findClose cb with _ | idx
      · rw [@uClose_none ⟨true, sb, cb, ct⟩ hfc]
        rfl
      · have hb := findClose_bounds hfc
        have hfc2 : findClose (cb ++ b) = some idx := findClose_append_left hfc
        rw [@uClose_some ⟨true, sb, cb, ct⟩ idx hfc,
          @uClose_some ⟨true, sb, cb ++ b, ct⟩ idx hfc2]
        have htake : (cb ++ b).take idx = cb.take idx :=
          List.take_append_of_le_length (by omega)
        have hdrop : (cb ++ b).drop (idx + 15) = cb.drop (idx + 15) ++ b :=
          List.drop_append_of_le_length (by omega)
        show uPushAfter
            (if (cb.drop (idx + 15)).isEmpty then
              ((⟨false, cb.drop (idx + 15), [], ct⟩ : ParserSt),
                [⟨ct, jsTrim (stripAnsi (cb.take idx)), false⟩])
            else
              ((uTryScanOpen ⟨false, cb.drop (idx + 15), [], ct⟩).1,
                ⟨ct, jsTrim (stripAnsi (cb.take idx)), false⟩ ::
                  (uTryScanOpen ⟨false, cb.drop (idx + 15), [], ct⟩).2)) b =
          (if ((cb ++ b).drop (idx + 15)).isEmpty then
            ((⟨false, (cb ++ b).drop (idx + 15), [], ct⟩ : ParserSt),
              [⟨ct, jsTrim (stripAnsi ((cb ++ b).take idx)), false⟩])
          else
            ((uTryScanOpen ⟨false, (cb ++ b).drop (idx + 15), [], ct⟩).1,
              ⟨ct, jsTrim (stripAnsi ((cb ++ b).take idx)), false⟩ ::
                (uTryScanOpen ⟨false, (cb ++ b).drop (idx + 15), [], ct⟩).2))
        rw [htake, hdrop]
        by_cases hre : (cb.drop (idx + 15)).isEmpty = true
        · have hrem : cb.drop (idx + 15) = [] := List.isEmpty_iff.mp hre
          rw [hrem]
          rw [if_pos (by decide : ([] : List Char).isEmpty = true), List.nil_append]
          by_cases hbe : b.isEmpty = true
          · rw [if_pos hbe]
            have hbnil : b = [] := List.isEmpty_iff.mp hbe
            subst hbnil
            rfl
          · rw [if_neg hbe]
            rfl
        · have hre2 : ¬(cb.drop (idx + 15) ++ b).isEmpty = true := by
            simp only [List.isEmpty_iff, List.append_eq_nil] at hre ⊢
            intro hh
            exact hre hh.1
          rw [if_neg hre, if_neg hre2]
          have hlt : (cb.drop (idx + 15)).length + ([] : List Char).length < n := by
            simp only [List.length_drop, List.length_nil]
            omega
          have hihs := (ih _ hlt).1 (cb.drop (idx + 15)) [] ct b (le_refl _)
          have h1 := congrArg Prod.fst hihs
          have h2 := congrArg Prod.snd hihs
          show ((uPush (uTryScanOpen ⟨false, cb.drop (idx + 15), [], ct⟩).1 b).1,
              (⟨ct, jsTrim (stripAnsi (cb.take idx)), false⟩ ::
                (uTryScanOpen ⟨false, cb.drop (idx + 15), [], ct⟩).2) ++
                (uPush (uTryScanOpen ⟨false, cb.drop (idx + 15), [], ct⟩).1 b).2) = _
          simp only [Prod.mk.injEq]
          constructor
          · exact h1
          · rw [List.cons_append]
            exact congrArg
              (List.cons ⟨ct, jsTrim (stripAnsi (cb.take idx)), false⟩) h2

/-- One push after another equals one push of the concatenation (untrimmed
reference parser). -/
theorem uPush_compose (st : ParserSt) (a b : List Char) :
    uPushAfter (uPush st a) b = uPush st (a ++ b) := by
  rcases st with ⟨cp, sb, cb, ct⟩
  cases cp
  · show uPushAfter (uTryScanOpen ⟨false, sb ++ a, cb, ct⟩) b =
      uTryScanOpen ⟨false, sb ++ (a ++ b), cb, ct⟩
    rw [(uAppend ((sb ++ a).length + cb.length)).1 (sb ++ a) cb ct b (le_refl _),
      List.append_assoc]
  · show uPushAfter (uTryClose ⟨true, sb, cb ++ a, ct⟩) b =
      uTryClose ⟨true, sb, cb ++ (a ++ b), ct⟩
    rw [(uAppend (sb.length + (cb ++ a).length)).2 sb (cb ++ a) ct b (le_refl _),
      List.append_assoc]

theorem uPushMany_cons (st : ParserSt) (d : List Char) (ds : List (List Char)) :
    uPushMany st (d :: ds) =
      ((uPushMany (uPush st d).1 ds).1,
        (uPush st d).2 ++ (uPushMany (uPush st d).1 ds).2) := rfl

/-- Feeding a nonempty chunk list to the untrimmed reference parser equals
feeding the single concatenated chunk. -/
theorem uPushMany_flatten : ∀ (ds : List (List Char)) (st : ParserSt) (d : List Char),
    uPushMany st (d :: ds) = uPush st (d ++ ds.flatten) := by
  intro ds
  induction ds with
  | nil =>
    intro st d
    rw [uPushMany_cons]
    show ((uPush st d).1, (uPush st d).2 ++ []) = uPush st (d ++ [].flatten)
    rw [List.append_nil, List.flatten_nil, List.append_nil]
  | cons e es ih =>
    intro st d
    rw [uPushMany_cons, ih]
    show uPushAfter (uPush st d) (e ++ es.flatten) = uPush st (d ++ (e :: es).flatten)
    rw [uPush_compose, List.flatten_cons]

/-! ### Simulation: the trimming parser against the untrimmed parser -/

theorem suffixOfSt_mono {u : ParserSt} {l1 l2 : List Char}
    (h : SuffixOfSt u l1) (hq : ∃ q, q ++ l1 = l2) : SuffixOfSt u l2 :=
  ⟨fun hc => suffix_trans (h.1 hc) hq, fun hc => suffix_trans (h.2 hc) hq⟩

/-- Joint simulation of one scan (or close) pass: provided every open
marker is at most 41 characters long, the trimmed scan buffer (a suffix of
the reference buffer keeping at least the 40-character safety tail) yields
the same emitted messages, and the resulting states stay related. -/
theorem uSim : ∀ n : Nat,
    (∀ (S : List Char) (cb cb2 : List Char) (ct ct2 : Option EnvType) (δ0 : Nat),
      S.length ≤ n →
      min S.length SCAN_TAIL ≤ (S.drop δ0).length →
      OpenBounded S →
      (∀ i len ty, findOpen S = some (i, len, ty) → δ0 ≤ i) →
      (tryScanOpen ⟨false, S.drop δ0, cb, ct⟩).2 =
          (uTryScanOpen ⟨false, S, cb2, ct2⟩).2 ∧
        RelP (tryScanOpen ⟨false, S.drop δ0, cb, ct⟩).1
          (uTryScanOpen ⟨false, S, cb2, ct2⟩).1 ∧
        SuffixOfSt (uTryScanOpen ⟨false, S, cb2, ct2⟩).1 S) ∧
    (∀ (cap sb : List Char) (ct : Option EnvType),
      cap.length ≤ n →
      OpenBounded cap →
      (tryClose ⟨true, sb, cap, ct⟩).2 = (uTryClose ⟨true, sb, cap, ct⟩).2 ∧
        RelP (tryClose ⟨true, sb, cap, ct⟩).1 (uTryClose ⟨true, sb, cap, ct⟩).1 ∧
        SuffixOfSt (uTryClose ⟨true, sb, cap, ct⟩).1 cap) := by
  intro n
  induction n using Nat.strong_induction_on with
  | _ n ih =>
    constructor
    · intro S cb cb2 ct ct2 δ0 hSn hmin hOB hfirst
      rcases hfoS : findOpen S with _ | ⟨i, len, ty⟩
      · have hfoT : findOpen (S.drop δ0) = none := findOpen_drop_none hfoS δ0
        simp only [@tryScanOpen_none ⟨false, S.drop δ0, cb, ct⟩ hfoT,
          @uScan_none ⟨false, S, cb2, ct2⟩ hfoS]
        refine ⟨trivial, Or.inl ⟨rfl, rfl, ?_, ?_, hfoS⟩,
          ⟨fun _ => ⟨[], rfl⟩, fun h => Bool.noConfusion h⟩⟩
        · show ∃ δ, trimTail (S.drop δ0) = S.drop δ
          unfold trimTail
          by_cases h40 : SCAN_TAIL < (S.drop δ0).length
          · rw [if_pos h40]
            refine ⟨δ0 + ((S.drop δ0).length - SCAN_TAIL), ?_⟩
            rw [← List.drop_drop]
          · rw [if_neg h40]
            exact ⟨δ0, rfl⟩
        · show min S.length SCAN_TAIL ≤ (trimTail (S.drop δ0)).length
          unfold trimTail
          by_cases h40 : SCAN_TAIL < (S.drop δ0).length
          · rw [if_pos h40, List.length_drop]
            omega
          · rw [if_neg h40]
            exact hmin
      · have hb := findOpen_bounds hfoS
        have hδi := hfirst i len ty hfoS
        have hlen41 : len ≤ 41 := openBounded_spec hOB (findOpen_spec hfoS).1
        have hfoT : findOpen (S.drop δ0) = some (i - δ0, len, ty) :=
          findOpen_drop hfoS hδi
        simp only [@tryScanOpen_some ⟨false, S.drop δ0, cb, ct⟩ (i - δ0) len ty hfoT,
          @uScan_some ⟨false, S, cb2, ct2⟩ i len ty hfoS]
        have hcap : (S.drop δ0).drop (i - δ0 + len) = S.drop (i + len) := by
          rw [List.drop_drop]
          congr 1
          omega
        rw [hcap]
        have hlt : (S.drop (i + len)).length < n := by
          rw [List.length_drop]
          omega
        have hrec := (ih _ hlt).2 (S.drop (i + len)) [] (validType ty)
          (le_refl _) (openBounded_drop hOB (i + len))
        exact ⟨hrec.1, hrec.2.1,
          suffixOfSt_mono hrec.2.2 (suffix_drop S (i + len))⟩
    · intro cap sb ct hn hOB
      rcases hfc : findClose cap with _ | idx
      · rw [@tryClose_none ⟨true, sb, cap, ct⟩ hfc,
          @uClose_none ⟨true, sb, cap, ct⟩ hfc]
        exact ⟨rfl, Or.inr ⟨rfl, rfl⟩,
          ⟨fun h => Bool.noConfusion h, fun _ => ⟨[], rfl⟩⟩⟩
      · have hb := findClose_bounds hfc
        by_cases hre : (cap.drop (idx + 15)).isEmpty = true
        · have ht : tryClose ⟨true, sb, cap, ct⟩ =
              ((⟨false, cap.drop (idx + 15), [], ct⟩ : ParserSt),
                [⟨ct, jsTrim (stripAnsi (cap.take idx)), false⟩]) := by
            rw [@tryClose_some ⟨true, sb, cap, ct⟩ idx hfc]
            simp only [hre, if_true]
          have hu : uTryClose ⟨true, sb, cap, ct⟩ =
              ((⟨false, cap.drop (idx + 15), [], ct⟩ : ParserSt),
                [⟨ct, jsTrim (stripAnsi (cap.take idx)), false⟩]) := by
            rw [@uClose_some ⟨true, sb, cap, ct⟩ idx hfc]
            simp only [hre, if_true]
          rw [ht, hu]
          refine ⟨rfl, Or.inl ⟨rfl, rfl, ⟨0, rfl⟩, Nat.min_le_left _ _, ?_⟩,
            ⟨fun _ => ⟨cap.take (idx + 15), List.take_append_drop _ _⟩,
              fun h => Bool.noConfusion h⟩⟩
          show findOpen (cap.drop (idx + 15)) = none
          rw [List.isEmpty_iff.mp hre]
          rfl
        · have hre' : (cap.drop (idx + 15)).isEmpty = false :=
            Bool.eq_false_iff.mpr hre
          have ht : tryClose ⟨true, sb, cap, ct⟩ =
              ((tryScanOpen ⟨false, cap.drop (idx + 15), [], ct⟩).1,
                ⟨ct, jsTrim (stripAnsi (cap.take idx)), false⟩ ::
                  (tryScanOpen ⟨false, cap.drop (idx + 15), [], ct⟩).2) := by
            rw [@tryClose_some ⟨true, sb, cap, ct⟩ idx hfc]
            simp only [hre', Bool.false_eq_true, if_false]
          have hu : uTryClose ⟨true, sb, cap, ct⟩ =
              ((uTryScanOpen ⟨false, cap.drop (idx + 15), [], ct⟩).1,
                ⟨ct, jsTrim (stripAnsi (cap.take idx)), false⟩ ::
                  (uTryScanOpen ⟨false, cap.drop (idx + 15), [], ct⟩).2) := by
            rw [@uClose_some ⟨true, sb, cap, ct⟩ idx hfc]
            simp only [hre', Bool.false_eq_true, if_false]
          rw [ht, hu]
          have hlt : (cap.drop (idx + 15)).length < n := by
            rw [List.length_drop]
            omega
          have hrec := (ih _ hlt).1 (cap.drop (idx + 15)) [] [] ct ct 0
            (le_refl _) (by rw [List.drop_zero]; exact Nat.min_le_left _ _)
            (openBounded_drop hOB (idx + 15))
            (fun i len ty _ => Nat.zero_le i)
          have hrec0 := hrec.1
          rw [List.drop_zero] at hrec0
          refine ⟨?_, ?_, suffixOfSt_mono hrec.2.2
            ⟨cap.take (idx + 15), List.take_append_drop _ _⟩⟩
          · exact congrArg
              (List.cons ⟨ct, jsTrim (stripAnsi (cap.take idx)), false⟩) hrec0
          · have hrel := hrec.2.1
            rw [List.drop_zero] at hrel
            exact hrel

/-- One activated push preserves the simulation relation and the emitted
messages, provided the input seen so far never carries an over-long open
marker. -/
theorem uSim_step (t u : ParserSt) (cur d : List Char)
    (hrel : RelP t u) (hsuf : SuffixOfSt u cur) (hOB : OpenBounded (cur ++ d)) :
    (pushCore t d).2 = (uPush u d).2 ∧
      RelP (pushCore t d).1 (uPush u d).1 ∧
      SuffixOfSt (uPush u d).1 (cur ++ d) := by
  rcases hrel with ⟨htc, huc, ⟨δ, hδ⟩, hmin, hfo⟩ | ⟨heq, hcap⟩
  · rcases t with ⟨tcp, tsb, tcb, tct⟩
    rcases u with ⟨ucp, usb, ucb, uct⟩
    cases tcp with
    | true => exact Bool.noConfusion htc
    | false =>
      cases ucp with
      | true => exact Bool.noConfusion huc
      | false =>
        obtain ⟨qs, hqs⟩ := hsuf.1 huc
        have htsb : tsb = usb.drop (usb.length - tsb.length) := drop_norm δ hδ
        have hlen : tsb.length ≤ usb.length := by
          have hl := congrArg List.length htsb
          rw [List.length_drop] at hl
          omega
        have hT : tsb ++ d = (usb ++ d).drop (usb.length - tsb.length) := by
          rw [List.drop_append_of_le_length (by omega), ← htsb]
        have hm : min usb.length SCAN_TAIL ≤ tsb.length := hmin
        have hmin2 : min (usb ++ d).length SCAN_TAIL ≤
            ((usb ++ d).drop (usb.length - tsb.length)).length := by
          rw [← hT, List.length_append, List.length_append]
          omega
        have hOB2 : OpenBounded (usb ++ d) :=
          openBounded_of_suffix_take hOB
            ⟨qs, [], by rw [List.append_nil, ← List.append_assoc, hqs]⟩
        have hnone : findOpen usb = none := hfo
        have hfirst2 : ∀ i len ty, findOpen (usb ++ d) = some (i, len, ty) →
            usb.length - tsb.length ≤ i := by
          intro i len ty hfo2
          have hsp := (findOpen_spec hfo2).1
          by_cases hin : i + len ≤ usb.length
          · exfalso
            have hdr : (usb ++ d).drop i = usb.drop i ++ d :=
              List.drop_append_of_le_length (by omega)
            rw [hdr] at hsp
            have hloc := openMatchAt_of_append_le hsp
              (by rw [List.length_drop]; omega)
            rw [findOpen_none_all hnone i] at hloc
            exact absurd hloc (by simp)
          · have hlen41 : len ≤ 41 := openBounded_spec hOB2 hsp
            have hst : SCAN_TAIL = 40 := rfl
            omega
        show (tryScanOpen ⟨false, tsb ++ d, tcb, tct⟩).2 =
            (uTryScanOpen ⟨false, usb ++ d, ucb, uct⟩).2 ∧
          RelP (tryScanOpen ⟨false, tsb ++ d, tcb, tct⟩).1
            (uTryScanOpen ⟨false, usb ++ d, ucb, uct⟩).1 ∧
          SuffixOfSt (uTryScanOpen ⟨false, usb ++ d, ucb, uct⟩).1 (cur ++ d)
        rw [hT]
        have hmain := (uSim (usb ++ d).length).1 (usb ++ d) tcb ucb tct uct
          (usb.length - tsb.length) (le_refl _) hmin2 hOB2 hfirst2
        exact ⟨hmain.1, hmain.2.1, suffixOfSt_mono hmain.2.2
          ⟨qs, by rw [← List.append_assoc, hqs]⟩⟩
  · subst heq
    rcases t with ⟨tcp, tsb, tcb, tct⟩
    cases tcp with
    | false => exact Bool.noConfusion hcap
    | true =>
      obtain ⟨qs, hqs⟩ := hsuf.2 rfl
      have hOB2 : OpenBounded (tcb ++ d) :=
        openBounded_of_suffix_take hOB
          ⟨qs, [], by rw [List.append_nil, ← List.append_assoc, hqs]⟩
      have hmain := (uSim (tcb ++ d).length).2 (tcb ++ d) tsb tct
        (le_refl _) hOB2
      exact ⟨hmain.1, hmain.2.1, suffixOfSt_mono hmain.2.2
        ⟨qs, by rw [← List.append_assoc, hqs]⟩⟩

/-- The simulation relation threads through a whole chunk sequence: the
real parser and the untrimmed reference parser emit identical messages. -/
theorem uSim_run : ∀ (chunks : List (List Char)) (t u : ParserSt)
    (cur : List Char), RelP t u → SuffixOfSt u cur →
    OpenBounded (cur ++ chunks.flatten) →
    (pushManyCore t chunks).2 = (uPushMany u chunks).2 := by
  intro chunks
  induction chunks with
  | nil =>
    intro t u cur _ _ _
    rfl
  | cons d ds ih =>
    intro t u cur hrel hsuf hOB
    have hOBd : OpenBounded (cur ++ d) :=
      openBounded_of_suffix_take hOB
        ⟨[], ds.flatten, by rw [List.nil_append, List.append_assoc,
          List.flatten_cons]⟩
    have hstep := uSim_step t u cur d hrel hsuf hOBd
    have hOBrest : OpenBounded ((cur ++ d) ++ ds.flatten) := by
      have h2 := hOB
      rw [List.flatten_cons, ← List.append_assoc] at h2
      exact h2
    have hrest := ih (pushCore t d).1 (uPush u d).1 (cur ++ d)
      hstep.2.1 hstep.2.2 hOBrest
    show (pushCore t d).2 ++ (pushManyCore (pushCore t d).1 ds).2 =
      (uPush u d).2 ++ (uPushMany (uPush u d).1 ds).2
    rw [hstep.1, hrest]

/-- Chunk-splitting invariance of the envelope parser, under the bound on
open-marker lengths: any splitting of the input emits the same messages as
the single-chunk feed. -/
theorem chunked_eq_single (full : List Char) (chunks : List (List Char))
    (hOB : OpenBounded full) (hj : chunks.flatten = full) :
    (pushManyCore initSt chunks).2 = (pushManyCore initSt [full]).2 := by
  have hrel : RelP initSt initSt :=
    Or.inl ⟨rfl, rfl, ⟨0, rfl⟩, Nat.min_le_left _ _, rfl⟩
  have hsuf : SuffixOfSt initSt [] :=
    ⟨fun _ => ⟨[], rfl⟩, fun h => Bool.noConfusion h⟩
  have h1 : (pushManyCore initSt chunks).2 = (uPushMany initSt chunks).2 :=
    uSim_run chunks initSt initSt [] hrel hsuf
      (by rw [List.nil_append, hj]; exact hOB)
  have h2 : (pushManyCore initSt [full]).2 = (uPushMany initSt [full]).2 :=
    uSim_run [full] initSt initSt [] hrel hsuf
      (by rw [List.nil_append, List.flatten_cons, List.flatten_nil,
        List.append_nil]; exact hOB)
  rw [h1, h2]
  cases chunks with
  | nil =>
    have hfull : full = [] := by
      rw [← hj]
      rfl
    subst hfull
    rfl
  | cons d ds =>
    rw [uPushMany_flatten ds initSt d, uPushMany_flatten [] initSt full,
      List.flatten_nil, List.append_nil, ← hj, List.flatten_cons]

set_option maxRecDepth 100000 in
/-- C1 (as amended): for every input in which each open-marker match is at
most 41 characters long (a type tag of at most 29 word characters — all
markers the system itself documents are far shorter), every chunking of the
input emits exactly the same envelope-message sequence as the single-chunk
feed; and the concrete scenario — pushing `hello <<<SLA`, then
`CK:done>>>finished<<<END_SLA`, then `CK>>>world` to an activated parser —
emits exactly one message `done` / `finished` / not incomplete, with
`world` retained in the scan buffer for subsequent matching. -/
theorem c1_split_invariance :
    (∀ (full : List Char) (chunks : List (List Char)),
      OpenBounded full → chunks.flatten = full →
      (pushManyCore initSt chunks).2 = (pushManyCore initSt [full]).2) ∧
    (pushManyCore initSt
        ["hello <<<SLA".toList, "CK:done>>>finished<<<END_SLA".toList,
          "CK>>>world".toList]).2 =
      [⟨some .done, "finished".toList, false⟩] ∧
    (pushManyCore initSt
        ["hello <<<SLA".toList, "CK:done>>>finished<<<END_SLA".toList,
          "CK>>>world".toList]).1 =
      ⟨false, "world".toList, [], some .done⟩ :=
  ⟨chunked_eq_single, by decide, by decide⟩

set_option maxRecDepth 100000 in
/-- Witness for C1 as amended: the scenario input satisfies the marker
bound, its three-chunk split joins to the full text, and the chunked feed
emits the same messages as the single-chunk feed. -/
theorem c1_split_invariance_witness :
    OpenBounded "hello <<<SLACK:done>>>finished<<<END_SLACK>>>world".toList ∧
    (["hello <<<SLA".toList, "CK:done>>>finished<<<END_SLA".toList,
        "CK>>>world".toList] : List (List Char)).flatten =
      "hello <<<SLACK:done>>>finished<<<END_SLACK>>>world".toList ∧
    (pushManyCore initSt
        ["hello <<<SLA".toList, "CK:done>>>finished<<<END_SLA".toList,
          "CK>>>world".toList]).2 =
      (pushManyCore initSt
        ["hello <<<SLACK:done>>>finished<<<END_SLACK>>>world".toList]).2 :=
  ⟨by unfold OpenBounded; decide, by decide,
    c1_split_invariance.1
      "hello <<<SLACK:done>>>finished<<<END_SLACK>>>world".toList
      ["hello <<<SLA".toList, "CK:done>>>finished<<<END_SLA".toList,
        "CK>>>world".toList]
      (by unfold OpenBounded; decide) (by decide)⟩

end SlackRunner
